/-
  Verification of `ai_translator.py` (twitchTransFreeNext).

  Shallow embedding: Python strings are lists of characters (`Str`);
  `urllib.parse.urlsplit` / `urlunsplit` / `urlparse` / `urlunparse` are
  modelled after CPython's implementation of those functions; the HTTP
  transport of `AITranslator.translate` is abstracted as an explicit
  outcome value; Python exceptions are modelled with `Except`.
-/
import Mathlib

set_option maxHeartbeats 1000000

/-- Python strings, modelled as lists of characters. -/
abbrev Str := List Char

/-- Shorthand turning a Lean string literal into the `Str` model. -/
def strL (s : String) : Str := s.toList

/-! ## Model of `urllib.parse` (CPython)

`_get_api_url` (src/ai_translator.py lines 52-84) relies on
`urlparse`/`urlunparse` from the Python standard library. The following
definitions mirror CPython's `urllib/parse.py` (`urlsplit`, `_splitnetloc`,
`_splitparams`, `urlunsplit`, `urlunparse`) as shipped with CPython 3.11.6
(leading C0-control/space lstrip, tab/CR/LF removal; the `uses_netloc` and
`uses_params` scheme lists are taken verbatim from that version, which
includes `rtsps` in both). The modelled parse failure is the
`ValueError("Invalid IPv6 URL")` raised for a bracket-unbalanced authority;
the deeper bracketed-host validation of `_check_bracketed_host` (it raises
`ValueError` for more bracketed authorities) and the NFKC `_checknetloc`
check (a no-op on ASCII authorities) are not modelled — both only move
additional inputs onto the `except` fallback branch of `_get_api_url`,
which is modelled and proved below. -/

/-- WHATWG C0 control or space: characters stripped from both ends of a URL
by CPython `urlsplit` (`_WHATWG_C0_CONTROL_OR_SPACE`). -/
def isStrippable (c : Char) : Bool := c.toNat ≤ 32

/-- Characters removed anywhere in a URL by CPython `urlsplit`
(`_UNSAFE_URL_BYTES_TO_REMOVE` = tab, carriage return, newline). -/
def isUnsafe (c : Char) : Bool := c = '\t' || c = '\r' || c = '\n'

/-- The input sanitisation CPython `urlsplit` applies before splitting:
`url.lstrip(_WHATWG_C0_CONTROL_OR_SPACE)` (leading characters only — CPython
deliberately preserves trailing space), then remove tab/CR/LF anywhere. -/
def sanitize (s : Str) : Str :=
  (s.dropWhile isStrippable).filter (fun c => !isUnsafe c)

/-- Split a list at the first occurrence of `c`: `some (before, after)`
(neither part containing that occurrence), or `none` if `c` is absent.
Models Python `s.split(c, 1)` / `s.find(c)`. -/
def splitFirst (c : Char) : Str → Option (Str × Str)
  | [] => none
  | x :: xs =>
    if x = c then some ([], xs)
    else (splitFirst c xs).map (fun p => (x :: p.1, p.2))

/-- CPython `scheme_chars`: ASCII letters, digits, `+` (43), `-` (45),
`.` (46). -/
def isSchemeChar (c : Char) : Bool :=
  (65 ≤ c.toNat && c.toNat ≤ 90) || (97 ≤ c.toNat && c.toNat ≤ 122) ||
  (48 ≤ c.toNat && c.toNat ≤ 57) || c.toNat = 43 || c.toNat = 45 ||
  c.toNat = 46

/-- ASCII alphabetic test (`url[0].isascii() and url[0].isalpha()`). -/
def isAsciiAlpha (c : Char) : Bool :=
  (65 ≤ c.toNat && c.toNat ≤ 90) || (97 ≤ c.toNat && c.toNat ≤ 122)

/-- A candidate scheme prefix that CPython `urlsplit` accepts: non-empty,
starts with an ASCII letter, and consists of scheme characters only. -/
def schemeLike (a : Str) : Bool :=
  match a with
  | [] => false
  | h :: _ => isAsciiAlpha h && a.all isSchemeChar

/-- ASCII lower-casing as applied by CPython to the scheme (all scheme
characters are ASCII, so `str.lower` agrees with ASCII lowering there). -/
def asciiLower (c : Char) : Char :=
  if h : 65 ≤ c.toNat ∧ c.toNat ≤ 90 then
    ⟨⟨⟨c.toNat + 32, by omega⟩⟩, by
      have : c.toNat + 32 < 55296 := by omega
      exact Or.inl (by exact this)⟩
  else c

/-- Scheme extraction step of CPython `urlsplit`. -/
def extractScheme (u : Str) : Str × Str :=
  match splitFirst ':' u with
  | none => ([], u)
  | some (pre, post) =>
    if schemeLike pre then (pre.map asciiLower, post) else ([], u)

/-- The delimiters ending an authority component (`_splitnetloc`). -/
def isNetDelim (c : Char) : Bool := c = '/' || c = '?' || c = '#'

/-- `_splitnetloc` applied after the leading `//` has been removed. -/
def splitnetloc (u : Str) : Str × Str :=
  (u.takeWhile (fun c => !isNetDelim c), u.dropWhile (fun c => !isNetDelim c))

/-- Result of CPython `urlsplit`. -/
structure SplitResult where
  scheme : Str
  netloc : Str
  path : Str
  query : Str
  fragment : Str
deriving DecidableEq

/-- Python exceptions relevant to this program. All constructors model
subclasses of `Exception` (so the final `except Exception` clause of
`AITranslator.translate` catches each of them). -/
inductive PyExc where
  | timeoutError
  | clientError (msg : Str)
  | valueError (msg : Str)
  | attributeError (msg : Str)
  | indexError (msg : Str)
  | typeError (msg : Str)
  | keyError (msg : Str)
  | otherError (msg : Str)
deriving DecidableEq

/-- CPython `urlsplit` after input sanitisation (the body of `urlsplit`
once `url` has been stripped and cleaned). -/
def urlsplitRaw (u : Str) : Except PyExc SplitResult :=
  let (scheme, u1) := extractScheme u
  let (netloc, u2) :=
    if u1.take 2 = ['/', '/'] then splitnetloc (u1.drop 2) else ([], u1)
  if (netloc.contains '[' ) ≠ (netloc.contains ']') then
    .error (.valueError (strL "Invalid IPv6 URL"))
  else
    let (u3, fragment) := match splitFirst '#' u2 with
      | none => (u2, [])
      | some p => p
    let (path, query) := match splitFirst '?' u3 with
      | none => (u3, [])
      | some p => p
    .ok ⟨scheme, netloc, path, query, fragment⟩

/-- CPython `urlsplit` on `str` input. -/
def urlsplitE (url : Str) : Except PyExc SplitResult :=
  urlsplitRaw (sanitize url)

/-- CPython `_splitparams`: split `;parameters` off the last path segment. -/
def splitparams (u : Str) : Str × Str :=
  if u.contains '/' then
    let lastSeg := (u.reverse.takeWhile (fun c => c ≠ '/')).reverse
    match splitFirst ';' lastSeg with
    | none => (u, [])
    | some p => (u.take (u.length - lastSeg.length) ++ p.1, p.2)
  else
    match splitFirst ';' u with
    | none => (u, [])
    | some p => (p.1, p.2)

/-- Result of CPython `urlparse` (a `SplitResult` plus `params`). -/
structure UrlParts where
  scheme : Str
  netloc : Str
  path : Str
  params : Str
  query : Str
  fragment : Str
deriving DecidableEq

/-- CPython `uses_params` (as of CPython 3.11.6; includes `rtsps`). -/
def usesParams : List Str :=
  [strL "", strL "ftp", strL "hdl", strL "prospero", strL "http",
   strL "imap", strL "https", strL "shttp", strL "rtsp", strL "rtsps",
   strL "rtspu", strL "sip", strL "sips", strL "mms", strL "sftp",
   strL "tel"]

/-- The `params`-splitting step CPython `urlparse` adds on top of
`urlsplit`: `if scheme in uses_params and ';' in url: url, params =
_splitparams(url)`, otherwise `params = ''`. -/
def paramStep (scheme p : Str) : Str × Str :=
  if usesParams.contains scheme = true ∧ p.contains ';' = true then
    splitparams p
  else (p, [])

/-- CPython `urlparse` on an already-sanitised string. -/
def urlparseRaw (u : Str) : Except PyExc UrlParts :=
  match urlsplitRaw u with
  | .error e => .error e
  | .ok s =>
    let (path, params) := paramStep s.scheme s.path
    .ok ⟨s.scheme, s.netloc, path, params, s.query, s.fragment⟩

/-- CPython `urlparse` on `str` input. -/
def urlparseE (url : Str) : Except PyExc UrlParts :=
  urlparseRaw (sanitize url)

/-- CPython `uses_netloc` (as of CPython 3.11.6; includes `rtsps`). -/
def usesNetloc : List Str :=
  [strL "", strL "ftp", strL "http", strL "gopher", strL "nntp",
   strL "telnet", strL "imap", strL "wais", strL "file", strL "mms",
   strL "https", strL "shttp", strL "snews", strL "prospero", strL "rtsp",
   strL "rtsps", strL "rtspu", strL "rsync", strL "svn", strL "svn+ssh",
   strL "sftp", strL "nfs", strL "git", strL "git+ssh", strL "ws",
   strL "wss"]

/-- CPython `urlunsplit`. -/
def urlunsplit (scheme netloc url query fragment : Str) : Str :=
  let u1 :=
    if netloc ≠ [] ∨
        (scheme ≠ [] ∧ usesNetloc.contains scheme ∧
          url.take 2 ≠ ['/', '/']) then
      ['/', '/'] ++ netloc ++
        (if url ≠ [] ∧ url.head? ≠ some '/' then '/' :: url else url)
    else url
  let u2 := if scheme ≠ [] then scheme ++ ':' :: u1 else u1
  let u3 := if query ≠ [] then u2 ++ '?' :: query else u2
  if fragment ≠ [] then u3 ++ '#' :: fragment else u3

/-- CPython `urlunparse`. -/
def urlunparse (scheme netloc path params query fragment : Str) : Str :=
  urlunsplit scheme netloc
    (if params ≠ [] then path ++ ';' :: params else path) query fragment

/-! ## `AITranslator._get_api_url` (src/ai_translator.py lines 52-84) -/

/-- The literal suffix `/chat/completions`. -/
def chatSuffix : Str := strL "/chat/completions"

/-- Python `str.endswith`. -/
def pyEndsWith (s suffix : Str) : Bool := suffix.isSuffixOf s

/-- The path completion of `_get_api_url` (lines 66-70): append
`chat/completions` after an existing trailing slash, otherwise append
`/chat/completions`. -/
def appendChat (path : Str) : Str :=
  if pyEndsWith path (strL "/") then path ++ strL "chat/completions"
  else path ++ chatSuffix

/-- `AITranslator._get_api_url`, as a function of the configured
`self.api_url`. The `try`/`except Exception: pass` of the source is the
`.error` branch: on any parse failure the original URL is returned
unchanged. `urlunparse` itself cannot raise on `str` inputs. -/
def getApiUrl (apiUrl : Str) : Str :=
  match urlparseE apiUrl with
  | .error _ => apiUrl
  | .ok p =>
    if pyEndsWith p.path chatSuffix then apiUrl
    else
      urlunparse p.scheme p.netloc (appendChat p.path) p.params p.query
        p.fragment


/-! ## Data model of the translator (src/ai_translator.py lines 19-49) -/

/-- `DEFAULT_SYSTEM_PROMPT` (src/ai_translator.py lines 19-25). -/
def DEFAULT_SYSTEM_PROMPT : Str :=
  strL "You are a translator for Twitch chat messages.\nYour task is to translate the given text accurately and naturally.\nRules:\n1. Output ONLY the translated text, nothing else.\n2. Do not add explanations, quotes, or prefixes.\n3. Keep the tone casual and natural, as it\x27s chat messages.\n4. Preserve emotes, usernames, and special formatting."

/-- Python float `temperature` is only ever passed through verbatim (no
arithmetic is performed on it anywhere in the source), so it is modelled by
an exact numeric type. -/
abbrev Temperature := Rat

/-- The `AITranslator` instance state set up by `__init__`
(src/ai_translator.py lines 31-49). -/
structure AITranslator where
  api_url : Str
  api_key : Str
  model : Str
  system_prompt : Str
  temperature : Temperature
  debug : Bool
deriving DecidableEq

/-- `AITranslator.__init__`. The `system_prompt` argument defaults to
`None`, modelled as `Option Str`; the source keeps
`system_prompt if system_prompt else DEFAULT_SYSTEM_PROMPT`, so any falsy
value (`None` or the empty string) selects the default prompt. -/
def mkAITranslator (api_url api_key model : Str) (system_prompt : Option Str)
    (temperature : Temperature) (debug : Bool) : AITranslator :=
  { api_url := api_url
    api_key := api_key
    model := model
    system_prompt :=
      match system_prompt with
      | some s => if s = [] then DEFAULT_SYSTEM_PROMPT else s
      | none => DEFAULT_SYSTEM_PROMPT
    temperature := temperature
    debug := debug }

/-! ## `AITranslator._build_request_body` (src/ai_translator.py 87-114) -/

/-- One chat message of the request body. -/
structure Message where
  role : Str
  content : Str
deriving DecidableEq

/-- The OpenAI-style request body. -/
structure RequestBody where
  model : Str
  messages : List Message
  temperature : Temperature
deriving DecidableEq

/-- The `user_message` f-string template of `_build_request_body`. -/
def buildUserMessage (text source_lang target_lang : Str) : Str :=
  strL "Source Language: " ++ source_lang ++
  strL "\nTarget Language: " ++ target_lang ++
  strL "\nText to translate:\n\"\"\"\n" ++ text ++
  strL "\n\"\"\"\nTranslation:"

/-- `AITranslator._build_request_body`. -/
def AITranslator.buildRequestBody (t : AITranslator)
    (text source_lang target_lang : Str) : RequestBody :=
  { model := t.model
    messages :=
      [⟨strL "system", t.system_prompt⟩,
       ⟨strL "user", buildUserMessage text source_lang target_lang⟩]
    temperature := t.temperature }

/-! ## `AITranslator.translate` (src/ai_translator.py lines 117-192)

The single outbound HTTP POST is abstracted: `AITranslator.plan` captures
everything the function decides before any network interaction (whether a
call happens at all, and with which URL, headers and body), and
`TransportOutcome` describes what the transport produced (an exception
while connecting/awaiting, or a response object). Response body accessors
`.text()` / `.json()` are modelled as the values those awaits produce
(`Except`-valued, since either can raise). -/

/-- The outbound POST request of `translate`, or `none` when the source
short-circuits before any network interaction (`if not text: return ''`,
lines 129-130). -/
structure PostRequest where
  url : Str
  headers : List (Str × Str)
  body : RequestBody
deriving DecidableEq

/-- The network-facing decision of `translate`: `none` means no network
call is made. -/
def AITranslator.plan (t : AITranslator) (text source_lang target_lang : Str) :
    Option PostRequest :=
  if text = [] then none
  else
    some
      { url := getApiUrl t.api_url
        headers :=
          [(strL "Content-Type", strL "application/json"),
           (strL "Authorization", strL "Bearer " ++ t.api_key)]
        body := t.buildRequestBody text source_lang target_lang }

/-- JSON values, as returned by `response.json()`. -/
inductive Json where
  | null
  | bool (b : Bool)
  | num (n : Int)
  | str (s : Str)
  | arr (elems : List Json)
  | obj (fields : List (Str × Json))

/-- An HTTP response as observed by the handler: its status code and what
the `await response.text()` / `await response.json()` calls would produce
(either can raise, e.g. a decode error or `ContentTypeError`). -/
structure HttpResponse where
  status : Nat
  textResult : Except PyExc Str
  jsonResult : Except PyExc Json

/-- What the transport produced for the single POST: an exception raised
while creating the session / sending the request / awaiting the response,
or a response object. -/
inductive TransportOutcome where
  | exc (e : PyExc)
  | resp (r : HttpResponse)

/-- aiohttp `ClientResponse.ok`: `True` if `status` is less than 400. -/
def responseOk (status : Nat) : Bool := status < 400

/-- Python `d.get(key, default)`: on anything but a dict this is an
`AttributeError` (exception messages are abbreviated in the model). -/
def pyDictGet (v : Json) (key : Str) (default : Json) : Except PyExc Json :=
  match v with
  | .obj kvs => .ok ((kvs.lookup key).getD default)
  | _ => .error (.attributeError (strL "object has no attribute get"))

/-- Python `x[0]`: first element of a list (`IndexError` when empty),
first character of a string, `KeyError` on a dict (JSON object keys are
strings, never the int `0`), `TypeError` otherwise. -/
def pySubscriptZero (v : Json) : Except PyExc Json :=
  match v with
  | .arr [] => .error (.indexError (strL "list index out of range"))
  | .arr (x :: _) => .ok x
  | .str [] => .error (.indexError (strL "string index out of range"))
  | .str (c :: _) => .ok (.str [c])
  | .obj _ => .error (.keyError (strL "0"))
  | _ => .error (.typeError (strL "object is not subscriptable"))

/-- Python truthiness of the extracted `translated_text`. -/
def pyFalsy : Json → Bool
  | .null => true
  | .bool b => !b
  | .num n => n = 0
  | .str s => s.isEmpty
  | .arr l => l.isEmpty
  | .obj l => l.isEmpty

/-- Python `str.isspace` characters (ASCII portion; the source only ever
strips whitespace around model output). -/
def pyIsSpace (c : Char) : Bool :=
  c = ' ' || c = '\t' || c = '\n' || c = '\r' || c = '\x0b' || c = '\x0c'

/-- Python `str.strip()` (no arguments): remove whitespace from both ends. -/
def stripWs (s : Str) : Str :=
  ((s.dropWhile pyIsSpace).reverse.dropWhile pyIsSpace).reverse

/-- Python `x.strip()`: an `AttributeError` unless `x` is a string. -/
def pyStripAttr : Json → Except PyExc Str
  | .str s => .ok (stripWs s)
  | _ => .error (.attributeError (strL "object has no attribute strip"))

/-- A debug print: one log line when `self.debug` is set, none otherwise. -/
def dbg (t : AITranslator) (line : Str) : List Str :=
  if t.debug then [line] else []

/-- Decimal rendering of a status code, for the f-string log lines. -/
def natStr (n : Nat) : Str := (toString n).toList

/-- The body of the `async with ... as response:` block (lines 148-177):
ordered status checks, then JSON extraction. Result: the returned string
plus the debug lines printed on that path; `.error` means a Python
exception escaped to the surrounding `try`. -/
def handleResponse (t : AITranslator) (r : HttpResponse) :
    Except PyExc (Str × List Str) :=
  if r.status = 401 then
    .ok ([], dbg t (strL "[AI Translator] Invalid API Key"))
  else if r.status = 429 then
    .ok ([], dbg t (strL "[AI Translator] Rate limit exceeded"))
  else if 500 ≤ r.status then
    .ok ([], dbg t (strL "[AI Translator] API server error: " ++ natStr r.status))
  else if ¬ responseOk r.status then do
    let errorText ← r.textResult
    .ok ([], dbg t (strL "[AI Translator] API error: " ++ natStr r.status ++
      strL " - " ++ errorText))
  else do
    let data ← r.jsonResult
    let choices ← pyDictGet data (strL "choices") (Json.arr [Json.obj []])
    let first ← pySubscriptZero choices
    let message ← pyDictGet first (strL "message") (Json.obj [])
    let content ← pyDictGet message (strL "content") (Json.str [])
    if pyFalsy content then
      .ok ([], dbg t (strL "[AI Translator] Empty response from API"))
    else do
      let s ← pyStripAttr content
      .ok (s, [])

/-- `str(e)` for the f-string log lines (messages abbreviated). -/
def excMessage : PyExc → Str
  | .timeoutError => []
  | .clientError m => m
  | .valueError m => m
  | .attributeError m => m
  | .indexError m => m
  | .typeError m => m
  | .keyError m => m
  | .otherError m => m

/-- Class test for `except asyncio.TimeoutError`. -/
def isTimeoutExc : PyExc → Bool
  | .timeoutError => true
  | _ => false

/-- Class test for `except aiohttp.ClientError`. -/
def isClientExc : PyExc → Bool
  | .clientError _ => true
  | _ => false

/-- Class test for `except Exception`: every exception modelled here is a
subclass of `Exception` (caller-initiated task cancellation, which derives
`BaseException`, is not a transport outcome and is outside this model). -/
def isExceptionExc : PyExc → Bool := fun _ => true

/-- The three `except` clauses of `translate` (lines 179-192), tried in
order; `none` would mean the exception matches no clause and propagates. -/
def excHandler (t : AITranslator) (e : PyExc) : Option (Str × List Str) :=
  if isTimeoutExc e then
    some ([], dbg t (strL "[AI Translator] API request timeout"))
  else if isClientExc e then
    some ([], dbg t (strL "[AI Translator] Network error: " ++ excMessage e))
  else if isExceptionExc e then
    some ([], dbg t (strL "[AI Translator] Unexpected error: " ++ excMessage e))
  else none

/-- `AITranslator.translate` (lines 117-192): `''` immediately on empty
text; otherwise the try-block around the POST and response handling, with
the `except` clauses applied to any raised exception. An `.error` result
would mean an exception escaped `translate` to its caller. -/
def AITranslator.translate (t : AITranslator) (text source_lang target_lang : Str)
    (out : TransportOutcome) : Except PyExc (Str × List Str) :=
  if text = [] then .ok ([], [])
  else
    -- `api_url` / `request_body` / `headers` are computed before the `try`
    -- (lines 132-138) and handed to the transport, which is abstracted by
    -- `out`; `AITranslator.plan` captures exactly that computation.
    let _post := t.plan text source_lang target_lang
    match
      (match out with
       | .exc e => Except.error e
       | .resp r => handleResponse t r) with
    | .ok v => .ok v
    | .error e =>
      match excHandler t e with
      | some v => .ok v
      | none => .error e

/-! ## Module-level singleton (src/ai_translator.py lines 196-233) -/

/-- `init_translator`: the module state after initialisation (the global
`_translator` starts out as `None`). -/
def initTranslator (api_url api_key model : Str) (system_prompt : Option Str)
    (temperature : Temperature) (debug : Bool) : Option AITranslator :=
  some (mkAITranslator api_url api_key model system_prompt temperature debug)

/-- The module-level `translate()` pass-through (lines 217-233), as a
function of the current global `_translator` state. -/
def globalTranslate (state : Option AITranslator)
    (text source_lang target_lang : Str) (out : TransportOutcome) :
    Except PyExc (Str × List Str) :=
  match state with
  | none =>
    .ok ([], [strL "[AI Translator] Translator not initialized. Call init_translator() first."])
  | some t => t.translate text source_lang target_lang out


/-- Invariants of a successful `urlparseE`: delimiter discipline of the
components, cleanliness with respect to the sanitisation pass, and
scheme-shape facts. These are exactly the facts a reassembled URL needs in
order to parse again. -/
structure ParseInv (p : UrlParts) : Prop where
  scheme_ok : p.scheme = [] ∨ schemeLike p.scheme = true
  netloc_nd : ∀ x ∈ p.netloc, isNetDelim x = false
  netloc_br : p.netloc.contains '[' = p.netloc.contains ']'
  path_hash : '#' ∉ p.path
  path_qm : '?' ∉ p.path
  params_hash : '#' ∉ p.params
  params_qm : '?' ∉ p.params
  params_slash : '/' ∉ p.params
  query_hash : '#' ∉ p.query
  clean_scheme : ∀ x ∈ p.scheme, isUnsafe x = false
  clean_netloc : ∀ x ∈ p.netloc, isUnsafe x = false
  clean_path : ∀ x ∈ p.path, isUnsafe x = false
  clean_params : ∀ x ∈ p.params, isUnsafe x = false
  clean_query : ∀ x ∈ p.query, isUnsafe x = false
  clean_fragment : ∀ x ∈ p.fragment, isUnsafe x = false
  path_head : p.scheme = [] → p.netloc = [] →
    ∀ x, p.path.head? = some x → isStrippable x = false
  path_scheme_safe : p.scheme = [] → p.netloc = [] →
    ∀ a b, splitFirst ':' p.path = some (a, b) → schemeLike a = false
  params_scheme : p.params ≠ [] → usesParams.contains p.scheme = true
  scheme_lower : p.scheme.map asciiLower = p.scheme

/-! ## Concrete sanity checks of the embedding -/
example :
    getApiUrl (strL "https://api.example.com/v1") =
      strL "https://api.example.com/v1/chat/completions" := by decide

example :
    getApiUrl (strL "https://api.example.com/v1/") =
      strL "https://api.example.com/v1/chat/completions" := by decide

example :
    getApiUrl (strL "https://api.example.com/v1/chat/completions") =
      strL "https://api.example.com/v1/chat/completions" := by decide

example : getApiUrl (strL "http://[::1/v1") = strL "http://[::1/v1" := by
  decide

example :
    getApiUrl (strL "https://h/v1//") =
      strL "https://h/v1//chat/completions" := by decide

example :
    getApiUrl (strL "https://h/a?q=1#f") =
      strL "https://h/a/chat/completions?q=1#f" := by decide

example :
    getApiUrl (strL "foo:////x") = strL "foo://x/chat/completions" := by
  decide

example : getApiUrl (strL "http://h") = strL "http://h/chat/completions" := by
  decide

example :
    getApiUrl (strL "http://h/a;p=1?q") =
      strL "http://h/a/chat/completions;p=1?q" := by decide

example : getApiUrl (strL "") = strL "/chat/completions" := by decide

example :
    getApiUrl (strL "//h:80/v1") = strL "//h:80/v1/chat/completions" := by
  decide

example :
    urlparseE (strL "ws://h/a;x") =
      Except.ok ⟨strL "ws", strL "h", strL "/a;x", [], [], []⟩ := rfl

example :
    urlparseE (strL "http://h/a;x") =
      Except.ok ⟨strL "http", strL "h", strL "/a", strL "x", [], []⟩ := rfl

example :
    getApiUrl (strL "ws://h/a;x") = strL "ws://h/a;x/chat/completions" := by
  decide

example :
    getApiUrl (strL "foo://h/chat/completions;x") =
      strL "foo://h/chat/completions;x/chat/completions" := by decide

example :
    getApiUrl (strL "rtsps://h/a;x") =
      strL "rtsps://h/a/chat/completions;x" := by decide

example :
    getApiUrl (strL "http://h/a;b/c") =
      strL "http://h/a;b/c/chat/completions" := by decide
example :
    (mkAITranslator (strL "u") (strL "k") (strL "m") none (3 / 10) false).translate
      (strL "hi") (strL "en") (strL "ja")
      (.resp ⟨200, .ok [],
        .ok (.obj [(strL "choices",
          .arr [.obj [(strL "message",
            .obj [(strL "content", .str (strL "  こんにちは  "))])]])])⟩) =
      .ok (strL "こんにちは", []) := by rfl

example :
    (mkAITranslator (strL "u") (strL "k") (strL "m") none (3 / 10) false).translate
      (strL "hi") (strL "en") (strL "ja")
      (.resp ⟨200, .ok [], .ok (.obj [(strL "choices", .arr [])])⟩) =
      .ok ([], []) := by rfl

example :
    (mkAITranslator (strL "u") (strL "k") (strL "m") none (3 / 10) true).translate
      (strL "hi") (strL "en") (strL "ja") (.exc .timeoutError) =
      .ok ([], [strL "[AI Translator] API request timeout"]) := by rfl


/-! ## Helper lemmas -/

theorem excHandler_total (t : AITranslator) (e : PyExc) :
    ∃ v, excHandler t e = some v := by
  cases e <;> exact ⟨_, rfl⟩

theorem translate_total_aux (t : AITranslator)
    (text source_lang target_lang : Str) (out : TransportOutcome) :
    ∃ v, t.translate text source_lang target_lang out = .ok v := by
  unfold AITranslator.translate
  by_cases htext : text = []
  · exact ⟨([], []), by simp [htext]⟩
  · simp only [if_neg htext]
    cases hinner :
        (match out with
         | .exc e => Except.error e
         | .resp r => handleResponse t r :
          Except PyExc (Str × List Str)) with
    | ok v => exact ⟨v, rfl⟩
    | error e =>
      obtain ⟨v, hv⟩ := excHandler_total t e
      exact ⟨v, by simp [hv]⟩

/-- C1: for every input and transport outcome, `translate` returns a value
(never an exception). -/
theorem translate_never_raises (t : AITranslator)
    (text source_lang target_lang : Str) (out : TransportOutcome) :
    ∃ v, t.translate text source_lang target_lang out = .ok v :=
  translate_total_aux t text source_lang target_lang out

/-- C4: empty text short-circuits: no network call is planned and the
result is the empty string, for every configuration and outcome. -/
theorem translate_empty_text (t : AITranslator) (source_lang target_lang : Str)
    (out : TransportOutcome) :
    t.plan [] source_lang target_lang = none ∧
      t.translate [] source_lang target_lang out = .ok ([], []) :=
  ⟨rfl, rfl⟩

theorem getApiUrl_error_aux {url : Str} {e : PyExc}
    (h : urlparseE url = .error e) : getApiUrl url = url := by
  unfold getApiUrl
  rw [h]

theorem getApiUrl_suffix_aux {url : Str} {p : UrlParts}
    (h : urlparseE url = .ok p) (hs : pyEndsWith p.path chatSuffix = true) :
    getApiUrl url = url := by
  unfold getApiUrl
  rw [h]
  simp only [hs, if_true]

/-- C7: whenever URL parsing raises, `_get_api_url` falls back to the
original unmodified URL (and so never raises itself). -/
theorem getApiUrl_parse_failure (url : Str) (e : PyExc)
    (h : urlparseE url = .error e) : getApiUrl url = url :=
  getApiUrl_error_aux h

/-- Witness for C7 at a concrete bracket-unbalanced URL. -/
theorem getApiUrl_parse_failure_witness :
    getApiUrl (strL "http://[::1/v1") = strL "http://[::1/v1" :=
  getApiUrl_parse_failure _ (.valueError (strL "Invalid IPv6 URL")) (by rfl)

/-- C9: the module-level `translate()` before `init_translator()` returns
the empty string with the not-initialized log line and does not throw. -/
theorem globalTranslate_uninitialized (text source_lang target_lang : Str)
    (out : TransportOutcome) :
    globalTranslate none text source_lang target_lang out =
      .ok ([], [strL "[AI Translator] Translator not initialized. Call init_translator() first."]) :=
  rfl

/-- C10: a falsy `system_prompt` (None or the empty string) selects the
built-in default prompt, so the system message content is never empty. -/
theorem systemPrompt_default (api_url api_key model : Str)
    (temp : Temperature) (d : Bool) :
    (mkAITranslator api_url api_key model (some []) temp d).system_prompt =
        DEFAULT_SYSTEM_PROMPT ∧
      (mkAITranslator api_url api_key model none temp d).system_prompt =
        DEFAULT_SYSTEM_PROMPT ∧
      initTranslator api_url api_key model (some []) temp d =
        some (mkAITranslator api_url api_key model (some []) temp d) ∧
      (∀ sp, (mkAITranslator api_url api_key model sp temp d).system_prompt ≠ []) ∧
      (∀ sp text source_lang target_lang,
        (((mkAITranslator api_url api_key model sp temp d).buildRequestBody
            text source_lang target_lang).messages.map Message.content).head? =
          some (mkAITranslator api_url api_key model sp temp d).system_prompt) := by
  refine ⟨rfl, rfl, rfl, ?_, fun sp text s tgt => rfl⟩
  intro sp
  cases sp with
  | none => simp [mkAITranslator]; decide
  | some s =>
    by_cases hs : s = [] <;> simp [mkAITranslator, hs]
    · decide

/-- C3 counterexample: a response with the non-2xx status 300 is NOT
short-circuited to the empty string — the source's final check is
aiohttp's `response.ok`, i.e. `status < 400`, so a 3xx response falls
through to body parsing and here returns the translated text. -/
theorem status_check_counterexample :
    (mkAITranslator (strL "http://h/v1") (strL "k") (strL "m") none
        (3 / 10) false).translate (strL "hi") (strL "en") (strL "ja")
      (.resp ⟨300, .ok (strL "body"),
        .ok (.obj [(strL "choices",
          .arr [.obj [(strL "message",
            .obj [(strL "content", .str (strL "Hello"))])]])])⟩) =
      .ok (strL "Hello", []) ∧ strL "Hello" ≠ ([] : Str) := by
  exact ⟨rfl, by decide⟩

/-- C3 amended: the terminal status checks short-circuit exactly the
statuses ≥ 400 (401 and 429 first, then ≥ 500, then the remaining ≥ 400
via `response.ok`), each yielding the empty string; 3xx statuses are not
short-circuited. -/
theorem status_checks_amended (t : AITranslator)
    (text source_lang target_lang : Str) (r : HttpResponse)
    (htext : text ≠ []) (h400 : 400 ≤ r.status) :
    (∃ logs, t.translate text source_lang target_lang (.resp r) = .ok ([], logs)) ∧
      (r.status = 401 →
        t.translate text source_lang target_lang (.resp r) =
          .ok ([], dbg t (strL "[AI Translator] Invalid API Key"))) ∧
      (r.status = 429 →
        t.translate text source_lang target_lang (.resp r) =
          .ok ([], dbg t (strL "[AI Translator] Rate limit exceeded"))) ∧
      (500 ≤ r.status →
        t.translate text source_lang target_lang (.resp r) =
          .ok ([], dbg t (strL "[AI Translator] API server error: " ++ natStr r.status))) ∧
      (r.status ≠ 401 → r.status ≠ 429 → r.status < 500 →
        ∀ bodyText, r.textResult = .ok bodyText →
          t.translate text source_lang target_lang (.resp r) =
            .ok ([], dbg t (strL "[AI Translator] API error: " ++ natStr r.status ++
              strL " - " ++ bodyText))) := by
  have hok : responseOk r.status = false := by
    simp [responseOk]; omega
  refine ⟨?_, ?_, ?_, ?_, ?_⟩
  · by_cases h401 : r.status = 401
    · exact ⟨dbg t (strL "[AI Translator] Invalid API Key"),
        by simp [AITranslator.translate, htext, handleResponse, h401]⟩
    · by_cases h429 : r.status = 429
      · exact ⟨dbg t (strL "[AI Translator] Rate limit exceeded"),
          by simp [AITranslator.translate, htext, handleResponse, h401, h429]⟩
      · by_cases h500 : 500 ≤ r.status
        · exact ⟨dbg t (strL "[AI Translator] API server error: " ++ natStr r.status),
            by simp [AITranslator.translate, htext, handleResponse, h401, h429, h500]⟩
        · cases htr : r.textResult with
          | ok bt =>
            exact ⟨dbg t (strL "[AI Translator] API error: " ++ natStr r.status ++
                strL " - " ++ bt),
              by simp [AITranslator.translate, htext, handleResponse, h401, h429,
                h500, hok, htr, Bind.bind, Except.bind]⟩
          | error e =>
            have hr : handleResponse t r = .error e := by
              simp [handleResponse, h401, h429, h500, hok, htr, Bind.bind,
                Except.bind]
            cases e <;>
              exact ⟨_, by
                simp only [AITranslator.translate, if_neg htext]
                rw [hr]
                rfl⟩
  · intro h401
    simp [AITranslator.translate, htext, handleResponse, h401]
  · intro h429
    have h401 : r.status ≠ 401 := by omega
    simp [AITranslator.translate, htext, handleResponse, h401, h429]
  · intro h500
    have h401 : r.status ≠ 401 := by omega
    have h429 : r.status ≠ 429 := by omega
    simp [AITranslator.translate, htext, handleResponse, h401, h429, h500]
  · intro h401 h429 h500 bodyText htr
    have h500n : ¬ 500 ≤ r.status := by omega
    simp [AITranslator.translate, htext, handleResponse, h401, h429, h500n,
      hok, htr, Bind.bind, Except.bind]

/-- Witness for C3 (amended) at status 401 with debug enabled. -/
theorem status_checks_amended_witness :
    (mkAITranslator (strL "http://h/v1") (strL "k") (strL "m") none
        (3 / 10) true).translate (strL "hi") (strL "en") (strL "ja")
      (.resp ⟨401, .ok [], .ok .null⟩) =
      .ok ([], [strL "[AI Translator] Invalid API Key"]) :=
  (status_checks_amended _ _ _ _ _ (by decide) (by decide)).2.1 rfl

/-- C2: on a 2xx response, a present non-empty
`choices[0].message.content` is returned trimmed; a missing body, a
missing or empty `choices` array, any absent expected field, or empty
content all yield the empty string; and no 2xx response ever makes
`translate` raise. -/
theorem translate_2xx (t : AITranslator) (text source_lang target_lang : Str)
    (r : HttpResponse) (htext : text ≠ [])
    (hlo : 200 ≤ r.status) (hhi : r.status ≤ 299) :
    (∀ kvs c0 cs mkvs mmkvs s,
      r.jsonResult = .ok (.obj kvs) →
      kvs.lookup (strL "choices") = some (.arr (c0 :: cs)) →
      c0 = .obj mkvs →
      mkvs.lookup (strL "message") = some (.obj mmkvs) →
      mmkvs.lookup (strL "content") = some (.str s) →
      s ≠ [] →
      t.translate text source_lang target_lang (.resp r) =
        .ok (stripWs s, [])) ∧
    (∃ v, t.translate text source_lang target_lang (.resp r) = .ok v) ∧
    (∀ e, r.jsonResult = .error e →
      ∃ logs, t.translate text source_lang target_lang (.resp r) =
        .ok ([], logs)) ∧
    (∀ kvs, r.jsonResult = .ok (.obj kvs) →
      kvs.lookup (strL "choices") = none →
      t.translate text source_lang target_lang (.resp r) =
        .ok ([], dbg t (strL "[AI Translator] Empty response from API"))) ∧
    (∀ kvs, r.jsonResult = .ok (.obj kvs) →
      kvs.lookup (strL "choices") = some (.arr []) →
      ∃ logs, t.translate text source_lang target_lang (.resp r) =
        .ok ([], logs)) ∧
    (∀ kvs c0 cs mkvs, r.jsonResult = .ok (.obj kvs) →
      kvs.lookup (strL "choices") = some (.arr (c0 :: cs)) →
      c0 = .obj mkvs →
      mkvs.lookup (strL "message") = none →
      t.translate text source_lang target_lang (.resp r) =
        .ok ([], dbg t (strL "[AI Translator] Empty response from API"))) ∧
    (∀ kvs c0 cs mkvs mmkvs, r.jsonResult = .ok (.obj kvs) →
      kvs.lookup (strL "choices") = some (.arr (c0 :: cs)) →
      c0 = .obj mkvs →
      mkvs.lookup (strL "message") = some (.obj mmkvs) →
      mmkvs.lookup (strL "content") = none →
      t.translate text source_lang target_lang (.resp r) =
        .ok ([], dbg t (strL "[AI Translator] Empty response from API"))) ∧
    (∀ kvs c0 cs mkvs mmkvs, r.jsonResult = .ok (.obj kvs) →
      kvs.lookup (strL "choices") = some (.arr (c0 :: cs)) →
      c0 = .obj mkvs →
      mkvs.lookup (strL "message") = some (.obj mmkvs) →
      mmkvs.lookup (strL "content") = some (.str []) →
      t.translate text source_lang target_lang (.resp r) =
        .ok ([], dbg t (strL "[AI Translator] Empty response from API"))) := by
  have h401 : r.status ≠ 401 := by omega
  have h429 : r.status ≠ 429 := by omega
  have h500 : ¬ 500 ≤ r.status := by omega
  have hok : responseOk r.status = true := by
    simp [responseOk]; omega
  refine ⟨?_, ?_, ?_, ?_, ?_, ?_, ?_, ?_⟩
  · intro kvs c0 cs mkvs mmkvs s hj hc h0 hm hcon hs
    subst h0
    simp [AITranslator.translate, htext, handleResponse, h401, h429, h500,
      hok, hj, hc, hm, hcon, hs, pyDictGet, pySubscriptZero, pyFalsy,
      pyStripAttr, Bind.bind, Except.bind]
  · exact translate_total_aux t text source_lang target_lang (.resp r)
  · intro e hj
    have hr : handleResponse t r = .error e := by
      simp [handleResponse, h401, h429, h500, hok, hj, Bind.bind, Except.bind]
    cases e <;>
      exact ⟨_, by
        simp only [AITranslator.translate, if_neg htext]
        rw [hr]
        rfl⟩
  · intro kvs hj hc
    simp [AITranslator.translate, htext, handleResponse, h401, h429, h500,
      hok, hj, hc, pyDictGet, pySubscriptZero, pyFalsy, Bind.bind, Except.bind]
  · intro kvs hj hc
    have hr : handleResponse t r =
        .error (.indexError (strL "list index out of range")) := by
      simp [handleResponse, h401, h429, h500, hok, hj, hc, pyDictGet,
        pySubscriptZero, Bind.bind, Except.bind]
    exact ⟨_, by
      simp only [AITranslator.translate, if_neg htext]
      rw [hr]
      rfl⟩
  · intro kvs c0 cs mkvs hj hc h0 hm
    subst h0
    simp [AITranslator.translate, htext, handleResponse, h401, h429, h500,
      hok, hj, hc, hm, pyDictGet, pySubscriptZero, pyFalsy, Bind.bind,
      Except.bind]
  · intro kvs c0 cs mkvs mmkvs hj hc h0 hm hcon
    subst h0
    simp [AITranslator.translate, htext, handleResponse, h401, h429, h500,
      hok, hj, hc, hm, hcon, pyDictGet, pySubscriptZero, pyFalsy, Bind.bind,
      Except.bind]
  · intro kvs c0 cs mkvs mmkvs hj hc h0 hm hcon
    subst h0
    simp [AITranslator.translate, htext, handleResponse, h401, h429, h500,
      hok, hj, hc, hm, hcon, pyDictGet, pySubscriptZero, pyFalsy, Bind.bind,
      Except.bind]

/-- Witness for C2 on a concrete 200 response with padded content. -/
theorem translate_2xx_witness :
    (mkAITranslator (strL "http://h/v1") (strL "k") (strL "m") none
        (3 / 10) false).translate (strL "hi") (strL "en") (strL "ja")
      (.resp ⟨200, .ok [],
        .ok (.obj [(strL "choices",
          .arr [.obj [(strL "message",
            .obj [(strL "content", .str (strL "  hola  "))])]])])⟩) =
      .ok (stripWs (strL "  hola  "), []) :=
  (translate_2xx _ _ _ _ _ (by decide) (by decide) (by decide)).1
    _ _ _ _ _ _ rfl rfl rfl rfl rfl (by decide)

theorem pyEndsWith_iff {s t : Str} : pyEndsWith s t = true ↔ t <:+ s := by
  simp [pyEndsWith, List.isSuffixOf, List.isPrefixOf_iff_prefix,
    List.reverse_prefix]

/-- C8: the request body has exactly the two messages [system, user] in
order; the user message embeds the source language, the target language
and the input text delimited by triple quotation marks, and ends with the
"Translation:" cue; the body carries the configured model and
temperature. -/
theorem requestBody_shape (t : AITranslator) (text source_lang target_lang : Str) :
    (t.buildRequestBody text source_lang target_lang).model = t.model ∧
    (t.buildRequestBody text source_lang target_lang).temperature = t.temperature ∧
    (t.buildRequestBody text source_lang target_lang).messages =
      [⟨strL "system", t.system_prompt⟩,
       ⟨strL "user", buildUserMessage text source_lang target_lang⟩] ∧
    buildUserMessage text source_lang target_lang =
      (strL "Source Language: " ++ source_lang ++
        strL "\nTarget Language: " ++ target_lang ++
        strL "\nText to translate:\n") ++
      (strL "\"\"\"\n" ++ text ++ strL "\n\"\"\"") ++
      strL "\nTranslation:" ∧
    (∃ a c, buildUserMessage text source_lang target_lang =
      a ++ source_lang ++ c) ∧
    (∃ a c, buildUserMessage text source_lang target_lang =
      a ++ target_lang ++ c) ∧
    pyEndsWith (buildUserMessage text source_lang target_lang)
      (strL "Translation:") = true := by
  refine ⟨rfl, rfl, rfl, ?_, ?_, ?_, ?_⟩
  · simp [buildUserMessage, strL]
  · exact ⟨strL "Source Language: ",
      strL "\nTarget Language: " ++ target_lang ++
        strL "\nText to translate:\n\"\"\"\n" ++ text ++
        strL "\n\"\"\"\nTranslation:", by simp [buildUserMessage, strL]⟩
  · exact ⟨strL "Source Language: " ++ source_lang ++ strL "\nTarget Language: ",
      strL "\nText to translate:\n\"\"\"\n" ++ text ++
        strL "\n\"\"\"\nTranslation:", by simp [buildUserMessage, strL]⟩
  · have h : strL "Translation:" <:+ buildUserMessage text source_lang target_lang := by
      unfold buildUserMessage
      have : strL "\n\"\"\"\nTranslation:" =
          strL "\n\"\"\"\n" ++ strL "Translation:" := by decide
      rw [this]
      simp only [← List.append_assoc]
      exact List.suffix_append _ _
    exact pyEndsWith_iff.mpr h

/-! ### List and character lemmas for the URL round-trip -/

theorem splitFirst_eq_some {c : Char} {s a b : Str}
    (h : splitFirst c s = some (a, b)) : s = a ++ c :: b ∧ c ∉ a := by
  induction s generalizing a b with
  | nil => simp [splitFirst] at h
  | cons x xs ih =>
    by_cases hx : x = c
    · subst hx
      rw [splitFirst, if_pos rfl] at h
      simp only [Option.some.injEq, Prod.mk.injEq] at h
      obtain ⟨h1, h2⟩ := h
      subst h1
      subst h2
      exact ⟨rfl, by simp⟩
    · rw [splitFirst, if_neg hx] at h
      cases hsp : splitFirst c xs with
      | none => rw [hsp] at h; simp [Option.map_none'] at h
      | some p =>
        obtain ⟨a2, b2⟩ := p
        rw [hsp] at h
        simp only [Option.map_some', Option.some.injEq, Prod.mk.injEq] at h
        obtain ⟨ha, hb⟩ := h
        obtain ⟨hs, hna⟩ := ih hsp
        subst hb
        subst ha
        subst hs
        refine ⟨rfl, ?_⟩
        intro hmem
        rcases List.mem_cons.mp hmem with h1 | h2
        · exact hx h1.symm
        · exact hna h2

theorem splitFirst_eq_none {c : Char} {s : Str} :
    splitFirst c s = none ↔ c ∉ s := by
  induction s with
  | nil => simp [splitFirst]
  | cons x xs ih =>
    rw [splitFirst]
    by_cases hx : x = c
    · subst hx; simp
    · have hcx : ¬ c = x := fun hc => hx hc.symm
      rw [if_neg hx, Option.map_eq_none', ih]
      simp [List.mem_cons, hcx]

theorem splitFirst_append_left {c : Char} {a b : Str} (h : c ∉ a) :
    splitFirst c (a ++ b) =
      (splitFirst c b).map (fun p => (a ++ p.1, p.2)) := by
  induction a with
  | nil =>
    simp only [List.nil_append]
    cases splitFirst c b with
    | none => rfl
    | some p => rfl
  | cons x xs ih =>
    have hx : x ≠ c := fun hc => h (hc ▸ List.mem_cons_self x xs)
    have hxs : c ∉ xs := fun hc => h (List.mem_cons_of_mem x hc)
    rw [List.cons_append, splitFirst, if_neg hx, ih hxs]
    cases splitFirst c b with
    | none => rfl
    | some p => rfl

theorem splitFirst_of_not_mem {c : Char} {s : Str} (h : c ∉ s) :
    splitFirst c s = none := splitFirst_eq_none.mpr h

theorem splitFirst_exact {c : Char} {a b : Str} (h : c ∉ a) :
    splitFirst c (a ++ c :: b) = some (a, b) := by
  rw [splitFirst_append_left h]
  simp [splitFirst]

theorem takeWhile_append_all {p : Char → Bool} {a b : Str}
    (h : ∀ x ∈ a, p x = true) :
    (a ++ b).takeWhile p = a ++ b.takeWhile p := by
  induction a with
  | nil => simp
  | cons x xs ih =>
    have hx : p x = true := h x (List.mem_cons_self x xs)
    simp only [List.cons_append, List.takeWhile_cons, hx, if_true]
    rw [ih fun y hy => h y (List.mem_cons_of_mem x hy)]

theorem dropWhile_append_all {p : Char → Bool} {a b : Str}
    (h : ∀ x ∈ a, p x = true) :
    (a ++ b).dropWhile p = b.dropWhile p := by
  induction a with
  | nil => simp
  | cons x xs ih =>
    have hx : p x = true := h x (List.mem_cons_self x xs)
    simp only [List.cons_append, List.dropWhile_cons, hx, if_true]
    exact ih fun y hy => h y (List.mem_cons_of_mem x hy)

theorem takeWhile_head_false {p : Char → Bool} {b : Str} {x : Char}
    (hh : b.head? = some x) (hx : p x = false) : b.takeWhile p = [] := by
  cases b with
  | nil => simp at hh
  | cons y ys =>
    simp only [List.head?_cons, Option.some.injEq] at hh
    subst hh
    simp [List.takeWhile_cons, hx]

theorem dropWhile_head_false {p : Char → Bool} {b : Str} {x : Char}
    (hh : b.head? = some x) (hx : p x = false) : b.dropWhile p = b := by
  cases b with
  | nil => simp at hh
  | cons y ys =>
    simp only [List.head?_cons, Option.some.injEq] at hh
    subst hh
    simp [List.dropWhile_cons, hx]

theorem head_dropWhile_false {p : Char → Bool} {l : Str} {x : Char}
    (h : (l.dropWhile p).head? = some x) : p x = false := by
  induction l with
  | nil => simp at h
  | cons y ys ih =>
    rw [List.dropWhile_cons] at h
    by_cases hy : p y = true
    · rw [if_pos hy] at h
      exact ih h
    · rw [if_neg hy] at h
      simp only [List.head?_cons, Option.some.injEq] at h
      subst h
      exact Bool.not_eq_true _ |>.mp hy

theorem mem_takeWhile {p : Char → Bool} {l : Str} {x : Char}
    (h : x ∈ l.takeWhile p) : p x = true ∧ x ∈ l := by
  induction l with
  | nil => simp at h
  | cons y ys ih =>
    rw [List.takeWhile_cons] at h
    by_cases hy : p y = true
    · rw [if_pos hy] at h
      rcases List.mem_cons.mp h with h1 | h2
      · subst h1; exact ⟨hy, List.mem_cons_self _ _⟩
      · obtain ⟨hp, hm⟩ := ih h2
        exact ⟨hp, List.mem_cons_of_mem _ hm⟩
    · rw [if_neg hy] at h
      simp at h

theorem dropWhile_sublist_mem {p : Char → Bool} {l : Str} {x : Char}
    (h : x ∈ l.dropWhile p) : x ∈ l :=
  (List.dropWhile_sublist p).subset h

theorem unsafe_strippable {c : Char} (h : isUnsafe c = true) :
    isStrippable c = true := by
  simp only [isUnsafe, Bool.or_eq_true, decide_eq_true_eq] at h
  rcases h with (h | h) | h <;> subst h <;> decide

theorem asciiAlpha_scheme {c : Char} (h : isAsciiAlpha c = true) :
    isSchemeChar c = true := by
  simp only [isAsciiAlpha, Bool.or_eq_true, Bool.and_eq_true,
    decide_eq_true_eq] at h
  simp only [isSchemeChar, Bool.or_eq_true, Bool.and_eq_true,
    decide_eq_true_eq]
  omega

theorem asciiAlpha_not_strippable {c : Char} (h : isAsciiAlpha c = true) :
    isStrippable c = false := by
  simp only [isAsciiAlpha, Bool.or_eq_true, Bool.and_eq_true,
    decide_eq_true_eq] at h
  simp only [isStrippable, decide_eq_false_iff_not]
  omega

theorem schemeChar_not_colon {c : Char} (h : isSchemeChar c = true) :
    c ≠ ':' := by
  rintro rfl
  simp only [isSchemeChar] at h
  revert h
  decide

theorem schemeLike_not_colon {a : Str} (h : schemeLike a = true) : ':' ∉ a := by
  intro hmem
  cases a with
  | nil => simp [schemeLike] at h
  | cons x xs =>
    simp only [schemeLike, Bool.and_eq_true, List.all_eq_true] at h
    exact schemeChar_not_colon (h.2 ':' hmem) rfl

theorem schemeLike_head_alpha {a : Str} {x : Char} (h : schemeLike a = true)
    (hh : a.head? = some x) : isAsciiAlpha x = true := by
  cases a with
  | nil => simp [schemeLike] at h
  | cons y ys =>
    simp only [List.head?_cons, Option.some.injEq] at hh
    subst hh
    simp only [schemeLike, Bool.and_eq_true] at h
    exact h.1

theorem slash_not_schemeLike {a : Str} (h : '/' ∈ a) :
    schemeLike a = false := by
  cases a with
  | nil => simp at h
  | cons x xs =>
    simp only [schemeLike]
    apply Bool.and_eq_false_iff.mpr
    right
    apply Bool.not_eq_true _ |>.mp
    intro hall
    rw [List.all_eq_true] at hall
    have := hall '/' h
    revert this
    decide

theorem asciiLower_toNat (c : Char) :
    (asciiLower c).toNat =
      if 65 ≤ c.toNat ∧ c.toNat ≤ 90 then c.toNat + 32 else c.toNat := by
  unfold asciiLower
  split
  · rfl
  · rfl

theorem asciiLower_fix {c : Char}
    (h : ¬(65 ≤ c.toNat ∧ c.toNat ≤ 90)) : asciiLower c = c := by
  unfold asciiLower
  rw [dif_neg h]

theorem asciiLower_idem (c : Char) :
    asciiLower (asciiLower c) = asciiLower c := by
  apply asciiLower_fix
  rw [asciiLower_toNat]
  by_cases hc : 65 ≤ c.toNat ∧ c.toNat ≤ 90
  · rw [if_pos hc]
    omega
  · rw [if_neg hc]
    exact hc

theorem map_asciiLower_idem (l : Str) :
    (l.map asciiLower).map asciiLower = l.map asciiLower := by
  induction l with
  | nil => rfl
  | cons x xs ih => simp [asciiLower_idem, ih]

theorem asciiLower_alpha {c : Char} (h : isAsciiAlpha c = true) :
    isAsciiAlpha (asciiLower c) = true := by
  simp only [isAsciiAlpha, Bool.or_eq_true, Bool.and_eq_true,
    decide_eq_true_eq] at h ⊢
  rw [asciiLower_toNat]
  split <;> omega

theorem asciiLower_scheme {c : Char} (h : isSchemeChar c = true) :
    isSchemeChar (asciiLower c) = true := by
  simp only [isSchemeChar, Bool.or_eq_true, Bool.and_eq_true,
    decide_eq_true_eq] at h ⊢
  rw [asciiLower_toNat]
  split <;> omega

theorem schemeLike_map_lower {a : Str} (h : schemeLike a = true) :
    schemeLike (a.map asciiLower) = true := by
  cases a with
  | nil => simp [schemeLike] at h
  | cons x xs =>
    simp only [schemeLike, Bool.and_eq_true, List.all_eq_true] at h
    obtain ⟨hx, hall⟩ := h
    simp only [List.map_cons, schemeLike, Bool.and_eq_true, List.all_eq_true]
    refine ⟨asciiLower_alpha hx, ?_⟩
    intro y hy
    simp only [← List.map_cons, List.mem_map] at hy
    obtain ⟨z, hz, hzy⟩ := hy
    subst hzy
    exact asciiLower_scheme (hall z hz)

theorem extractScheme_cases {v s u1 : Str} (h : extractScheme v = (s, u1)) :
    (s = [] ∧ u1 = v) ∨
      (∃ pre, v = pre ++ ':' :: u1 ∧ ':' ∉ pre ∧ schemeLike pre = true ∧
        s = pre.map asciiLower) := by
  unfold extractScheme at h
  cases hsp : splitFirst ':' v with
  | none =>
    rw [hsp] at h
    injection h with h1 h2
    exact Or.inl ⟨h1.symm, h2.symm⟩
  | some p =>
    obtain ⟨pre, post⟩ := p
    rw [hsp] at h
    dsimp only at h
    obtain ⟨hv, hpre⟩ := splitFirst_eq_some hsp
    by_cases hsl : schemeLike pre = true
    · rw [if_pos hsl] at h
      injection h with h1 h2
      subst h2
      exact Or.inr ⟨pre, hv, hpre, hsl, h1.symm⟩
    · rw [if_neg hsl] at h
      injection h with h1 h2
      exact Or.inl ⟨h1.symm, h2.symm⟩

theorem extractScheme_of_scheme {sc rest : Str} (h : schemeLike sc = true) :
    extractScheme (sc ++ ':' :: rest) = (sc.map asciiLower, rest) := by
  unfold extractScheme
  rw [splitFirst_exact (schemeLike_not_colon h)]
  dsimp only
  rw [if_pos h]

theorem extractScheme_no_scheme {s : Str}
    (h : ∀ a b, splitFirst ':' s = some (a, b) → schemeLike a = false) :
    extractScheme s = ([], s) := by
  unfold extractScheme
  cases hsp : splitFirst ':' s with
  | none => rfl
  | some p =>
    obtain ⟨a, b⟩ := p
    dsimp only
    rw [if_neg]
    rw [h a b hsp]
    simp

theorem head_not_alpha_scheme_safe {s : Str} {x : Char}
    (hh : s.head? = some x) (hx : isAsciiAlpha x = false) :
    ∀ a b, splitFirst ':' s = some (a, b) → schemeLike a = false := by
  intro a b hsp
  obtain ⟨hs, hna⟩ := splitFirst_eq_some hsp
  cases a with
  | nil => simp [schemeLike]
  | cons y ys =>
    subst hs
    simp only [List.cons_append, List.head?_cons, Option.some.injEq] at hh
    subst hh
    simp [schemeLike, hx]

theorem sanitize_clean {u : Str} : ∀ x ∈ sanitize u, isUnsafe x = false := by
  intro x hx
  unfold sanitize at hx
  have := List.of_mem_filter hx
  simpa using this

theorem sanitize_head {u : Str} {x : Char} (h : (sanitize u).head? = some x) :
    isStrippable x = false := by
  unfold sanitize at h
  cases hd : (u.dropWhile isStrippable) with
  | nil => rw [hd] at h; simp at h
  | cons y ys =>
    have hy : isStrippable y = false := by
      apply head_dropWhile_false (l := u)
      rw [hd]
      rfl
    have hyu : isUnsafe y = false := by
      cases hu : isUnsafe y
      · rfl
      · rw [unsafe_strippable hu] at hy; exact absurd hy (by simp)
    rw [hd] at h
    rw [List.filter_cons, if_pos (by simp [hyu])] at h
    simp only [List.head?_cons, Option.some.injEq] at h
    subst h
    exact hy

theorem sanitize_eq_self {s : Str}
    (h1 : ∀ x, s.head? = some x → isStrippable x = false)
    (h2 : ∀ x ∈ s, isUnsafe x = false) : sanitize s = s := by
  unfold sanitize
  have hdw : s.dropWhile isStrippable = s := by
    cases s with
    | nil => rfl
    | cons y ys =>
      rw [List.dropWhile_cons, if_neg]
      rw [h1 y rfl]
      simp
  rw [hdw]
  rw [List.filter_eq_self]
  intro a ha
  simp [h2 a ha]

theorem splitnetloc_exact {netloc rest : Str}
    (hn : ∀ x ∈ netloc, isNetDelim x = false)
    (hr : ∀ x, rest.head? = some x → isNetDelim x = true) :
    splitnetloc (netloc ++ rest) = (netloc, rest) := by
  have hp : ∀ x ∈ netloc, (fun c => !isNetDelim c) x = true := by
    intro x hx; simp [hn x hx]
  unfold splitnetloc
  rw [takeWhile_append_all hp, dropWhile_append_all hp]
  cases rest with
  | nil => simp
  | cons y ys =>
    have hy : isNetDelim y = true := hr y rfl
    rw [takeWhile_head_false (b := y :: ys) (x := y) rfl (by simp [hy]),
      dropWhile_head_false (b := y :: ys) (x := y) rfl (by simp [hy])]
    simp

theorem prefix_head {a b : Str} (h : a <+: b) (hne : a ≠ []) :
    a.head? = b.head? := by
  obtain ⟨t, rfl⟩ := h
  cases a with
  | nil => exact absurd rfl hne
  | cons x xs => rfl

theorem lastSeg_of_append {a b : Str} (hb : '/' ∉ b) :
    ((a ++ '/' :: b).reverse.takeWhile (fun c => c ≠ '/')).reverse = b := by
  rw [List.reverse_append, List.reverse_cons, List.append_assoc]
  rw [takeWhile_append_all (b := ['/'] ++ a.reverse)]
  · rw [takeWhile_head_false (b := ['/'] ++ a.reverse) (x := '/') rfl (by simp)]
    simp
  · intro x hx
    simp only [List.mem_reverse] at hx
    simp only [decide_eq_true_eq]
    exact fun hxe => hb (hxe ▸ hx)

theorem lastSeg_suffix (u : Str) :
    ((u.reverse.takeWhile (fun c => c ≠ '/')).reverse) <:+ u := by
  have h : u.reverse.takeWhile (fun c => c ≠ '/') <+: u.reverse :=
    List.takeWhile_prefix _
  have h2 := List.reverse_suffix.mpr h
  simpa using h2

theorem paramStep_facts {scheme s path params : Str}
    (h : paramStep scheme s = (path, params)) :
    path <+: s ∧ (∀ x ∈ params, x ∈ s) ∧ '/' ∉ params := by
  unfold paramStep at h
  by_cases hc : usesParams.contains scheme = true ∧ s.contains ';' = true
  · rw [if_pos hc] at h
    unfold splitparams at h
    by_cases hslash : s.contains '/'
    · rw [if_pos hslash] at h
      simp only at h
      cases hsp : splitFirst ';'
          ((s.reverse.takeWhile (fun c => c ≠ '/')).reverse) with
      | none =>
        rw [hsp] at h
        injection h with h1 h2
        subst h1
        exact ⟨List.prefix_rfl, by simp [← h2], by simp [← h2]⟩
      | some p =>
        obtain ⟨a, b⟩ := p
        rw [hsp] at h
        injection h with h1 h2
        subst h1
        subst h2
        obtain ⟨hseg, hna⟩ := splitFirst_eq_some hsp
        have hsuf : ((s.reverse.takeWhile (fun c => c ≠ '/')).reverse) <:+ s :=
          lastSeg_suffix s
        obtain ⟨w, hw⟩ := hsuf
        have hlen0 : w.length +
            ((s.reverse.takeWhile (fun c => c ≠ '/')).reverse).length =
            s.length := by
          conv_rhs => rw [← hw]
          rw [List.length_append]
        have hlen : w.length =
            s.length - ((s.reverse.takeWhile (fun c => c ≠ '/')).reverse).length := by
          omega
        have htake : s.take
            (s.length - ((s.reverse.takeWhile (fun c => c ≠ '/')).reverse).length) = w := by
          rw [← hlen, ← hw, List.take_left]
        constructor
        · rw [htake]
          refine ⟨';' :: b ++ w.drop w.length, ?_⟩
          have : s = w ++ (a ++ ';' :: b) := by rw [← hseg, hw]
          rw [this]
          simp
        constructor
        · intro x hx
          have hxseg : x ∈ (s.reverse.takeWhile (fun c => c ≠ '/')).reverse := by
            rw [hseg]
            exact List.mem_append.mpr (Or.inr (List.mem_cons_of_mem _ hx))
          rw [← hw]
          exact List.mem_append.mpr (Or.inr hxseg)
        · intro hmem
          have hxseg : '/' ∈ (s.reverse.takeWhile (fun c => c ≠ '/')).reverse := by
            rw [hseg]
            exact List.mem_append.mpr (Or.inr (List.mem_cons_of_mem _ hmem))
          rw [List.mem_reverse] at hxseg
          have hfalse := (mem_takeWhile hxseg).1
          exact absurd hfalse (by decide)
    · rw [if_neg hslash] at h
      cases hsp : splitFirst ';' s with
      | none =>
        rw [hsp] at h
        injection h with h1 h2
        subst h1
        exact ⟨List.prefix_rfl, by simp [← h2], by simp [← h2]⟩
      | some p =>
        obtain ⟨a, b⟩ := p
        rw [hsp] at h
        injection h with h1 h2
        subst h1
        subst h2
        obtain ⟨hs, hna⟩ := splitFirst_eq_some hsp
        constructor
        · exact ⟨';' :: b, hs.symm⟩
        constructor
        · intro x hx
          rw [hs]
          exact List.mem_append.mpr (Or.inr (List.mem_cons_of_mem _ hx))
        · intro hmem
          have hmem2 : '/' ∈ s := by
            rw [hs]
            exact List.mem_append.mpr (Or.inr (List.mem_cons_of_mem _ hmem))
          have hcont : s.contains '/' = true := by
            unfold List.contains
            exact List.elem_iff.mpr hmem2
          exact hslash hcont
  · rw [if_neg hc] at h
    injection h with h1 h2
    subst h1
    exact ⟨List.prefix_rfl, by simp [← h2], by simp [← h2]⟩

theorem paramStep_scheme_of_params {scheme s path params : Str}
    (h : paramStep scheme s = (path, params)) (hne : params ≠ []) :
    usesParams.contains scheme = true := by
  unfold paramStep at h
  by_cases hg : usesParams.contains scheme = true ∧ s.contains ';' = true
  · exact hg.1
  · rw [if_neg hg] at h
    injection h with h1 h2
    exact absurd h2.symm hne

theorem urlsplitRaw_build {u sc u1 nl u2 u3 frag path q : Str}
    (h1 : extractScheme u = (sc, u1))
    (h2 : (if u1.take 2 = ['/', '/'] then splitnetloc (u1.drop 2)
      else ([], u1)) = (nl, u2))
    (h3 : (nl.contains '[') = (nl.contains ']'))
    (h4 : (match splitFirst '#' u2 with
      | none => (u2, ([] : Str))
      | some p => p) = (u3, frag))
    (h5 : (match splitFirst '?' u3 with
      | none => (u3, ([] : Str))
      | some p => p) = (path, q)) :
    urlsplitRaw u = .ok ⟨sc, nl, path, q, frag⟩ := by
  unfold urlsplitRaw
  rw [h1]
  dsimp only
  rw [h2]
  dsimp only
  rw [if_neg (fun hne => hne h3)]
  rw [h4]
  dsimp only
  rw [h5]

theorem urlsplitRaw_error {u sc u1 nl u2 : Str}
    (h1 : extractScheme u = (sc, u1))
    (h2 : (if u1.take 2 = ['/', '/'] then splitnetloc (u1.drop 2)
      else ([], u1)) = (nl, u2))
    (h3 : (nl.contains '[') ≠ (nl.contains ']')) :
    urlsplitRaw u = .error (.valueError (strL "Invalid IPv6 URL")) := by
  unfold urlsplitRaw
  rw [h1]
  dsimp only
  rw [h2]
  dsimp only
  rw [if_pos h3]

theorem urlparseRaw_build {u path0 params0 : Str} {s : SplitResult}
    (h1 : urlsplitRaw u = .ok s)
    (h2 : paramStep s.scheme s.path = (path0, params0)) :
    urlparseRaw u = .ok ⟨s.scheme, s.netloc, path0, params0, s.query,
      s.fragment⟩ := by
  unfold urlparseRaw
  rw [h1]
  dsimp only
  rw [h2]

theorem urlparseRaw_error {u : Str} {e : PyExc}
    (h1 : urlsplitRaw u = .error e) : urlparseRaw u = .error e := by
  unfold urlparseRaw
  rw [h1]

theorem urlunsplit_decomp (scheme netloc url query fragment : Str) :
    urlunsplit scheme netloc url query fragment =
      (if scheme ≠ [] then scheme ++ [':'] else []) ++
      ((if netloc ≠ [] ∨
          (scheme ≠ [] ∧ usesNetloc.contains scheme ∧
            url.take 2 ≠ ['/', '/']) then
        ['/', '/'] ++ netloc ++
          (if url ≠ [] ∧ url.head? ≠ some '/' then '/' :: url else url)
      else url) ++
      ((if query ≠ [] then '?' :: query else []) ++
       (if fragment ≠ [] then '#' :: fragment else []))) := by
  unfold urlunsplit
  by_cases hn : netloc ≠ [] ∨
      (scheme ≠ [] ∧ usesNetloc.contains scheme ∧ url.take 2 ≠ ['/', '/']) <;>
    by_cases hs : scheme ≠ [] <;>
    by_cases hq : query ≠ [] <;>
    by_cases hf : fragment ≠ [] <;>
    simp [hn, hs, hq, hf, List.append_assoc]

theorem chatSuffix_eq : chatSuffix = strL "/chat" ++ '/' :: strL "completions" := by
  decide

theorem endsWith_chat_decomp {s : Str} (h : pyEndsWith s chatSuffix = true) :
    ∃ w, s = w ++ chatSuffix := by
  obtain ⟨w, hw⟩ := pyEndsWith_iff.mp h
  exact ⟨w, hw.symm⟩

theorem appendChat_ext (path : Str) :
    ∃ ext, appendChat path = path ++ ext ∧
      (ext = strL "chat/completions" ∨ ext = strL "/chat/completions") := by
  unfold appendChat
  by_cases h : pyEndsWith path (strL "/") = true
  · exact ⟨strL "chat/completions", by rw [if_pos h], Or.inl rfl⟩
  · refine ⟨chatSuffix, ?_, Or.inr rfl⟩
    rw [if_neg]
    intro hc
    exact h hc

theorem appendChat_ends (path : Str) :
    pyEndsWith (appendChat path) chatSuffix = true := by
  unfold appendChat
  by_cases h : pyEndsWith path (strL "/") = true
  · rw [if_pos h]
    obtain ⟨w, hw⟩ := pyEndsWith_iff.mp h
    apply pyEndsWith_iff.mpr
    refine ⟨w, ?_⟩
    rw [← hw, List.append_assoc]
    congr 1
  · rw [if_neg (fun hc => h hc)]
    exact pyEndsWith_iff.mpr ⟨path, rfl⟩

theorem appendChat_decompB (path : Str) :
    ∃ B, appendChat path = B ++ '/' :: strL "completions" := by
  obtain ⟨w, hw⟩ := endsWith_chat_decomp (appendChat_ends path)
  refine ⟨w ++ strL "/chat", ?_⟩
  rw [hw, chatSuffix_eq, List.append_assoc]

theorem appendChat_ne_nil (path : Str) : appendChat path ≠ [] := by
  obtain ⟨B, hB⟩ := appendChat_decompB path
  rw [hB]
  simp

theorem appendChat_head {path : Str} (h : path ≠ []) :
    (appendChat path).head? = path.head? := by
  obtain ⟨ext, hext, _⟩ := appendChat_ext path
  rw [hext]
  cases path with
  | nil => exact absurd rfl h
  | cons x xs => rfl

theorem appendChat_head_nil : (appendChat []).head? = some '/' := by decide

theorem appendChat_len (path : Str) : 2 ≤ (appendChat path).length := by
  obtain ⟨w, hw⟩ := endsWith_chat_decomp (appendChat_ends path)
  rw [hw, List.length_append]
  have : chatSuffix.length = 17 := by decide
  omega

theorem chatSuffix_cons : chatSuffix = '/' :: strL "chat/completions" := by
  decide

theorem appendChat_not_mem {path : Str} {c : Char} (h1 : c ∉ path)
    (h2 : c ∉ chatSuffix) : c ∉ appendChat path := by
  obtain ⟨ext, hext, hor⟩ := appendChat_ext path
  rw [hext]
  intro hmem
  rcases List.mem_append.mp hmem with hm | hm
  · exact h1 hm
  · apply h2
    rcases hor with rfl | rfl
    · rw [chatSuffix_cons]
      exact List.mem_cons_of_mem _ hm
    · exact hm

theorem appendChat_take2_mp {path : Str}
    (h : (appendChat path).take 2 = ['/', '/']) :
    path.take 2 = ['/', '/'] := by
  cases path with
  | nil => exact absurd h (by decide)
  | cons x xs =>
    cases xs with
    | nil =>
      by_cases hx : x = '/'
      · subst hx
        exact absurd h (by decide)
      · exfalso
        have hns : pyEndsWith [x] (strL "/") = false := by
          show (('/' == x) && true) = false
          have : ('/' == x) = false := by
            apply beq_false_of_ne
            exact fun hc => hx hc.symm
          rw [this]
          rfl
        have hAC : appendChat [x] = [x] ++ chatSuffix := by
          unfold appendChat
          rw [hns]
          simp
        rw [hAC] at h
        have h2 : List.take 2 ([x] ++ chatSuffix) = [x, '/'] := rfl
        rw [h2] at h
        injection h with hx2
        exact hx hx2
    | cons y ys =>
      obtain ⟨ext, hext, _⟩ := appendChat_ext (x :: y :: ys)
      rw [hext] at h
      exact h

theorem pyEndsWith_append {M N t : Str} (h : pyEndsWith N t = true) :
    pyEndsWith (M ++ N) t = true := by
  apply pyEndsWith_iff.mpr
  exact (pyEndsWith_iff.mp h).trans (List.suffix_append M N)

theorem paramStep_chat_params {scheme B P : Str}
    (hu : usesParams.contains scheme = true) (hP : '/' ∉ P) :
    paramStep scheme ((B ++ '/' :: strL "completions") ++ ';' :: P) =
      (B ++ '/' :: strL "completions", P) := by
  have hkey : (B ++ '/' :: strL "completions") ++ ';' :: P =
      B ++ '/' :: (strL "completions" ++ ';' :: P) := by
    simp [List.append_assoc]
  have hcontains : ((B ++ '/' :: strL "completions") ++ ';' :: P).contains ';' = true := by
    unfold List.contains
    apply List.elem_iff.mpr
    exact List.mem_append.mpr (Or.inr (List.mem_cons_self _ _))
  have hslash : ((B ++ '/' :: strL "completions") ++ ';' :: P).contains '/' = true := by
    unfold List.contains
    apply List.elem_iff.mpr
    exact List.mem_append.mpr (Or.inl (List.mem_append.mpr
      (Or.inr (List.mem_cons_self _ _))))
  unfold paramStep
  rw [if_pos ⟨hu, hcontains⟩]
  unfold splitparams
  rw [if_pos hslash]
  dsimp only
  have hnoslash : '/' ∉ strL "completions" ++ ';' :: P := by
    intro hm
    rcases List.mem_append.mp hm with hm2 | hm2
    · revert hm2; decide
    · rcases List.mem_cons.mp hm2 with hm3 | hm3
      · exact absurd hm3 (by decide)
      · exact hP hm3
  have hseg : (((B ++ '/' :: strL "completions") ++ ';' :: P).reverse.takeWhile
      (fun c => c ≠ '/')).reverse = strL "completions" ++ ';' :: P := by
    rw [hkey]
    exact lastSeg_of_append hnoslash
  rw [hseg]
  rw [splitFirst_append_left (by decide : ';' ∉ strL "completions")]
  rw [show splitFirst ';' (';' :: P) = some ([], P) from rfl]
  dsimp only [Option.map_some']
  have hlen : ((B ++ '/' :: strL "completions") ++ ';' :: P).length -
      (strL "completions" ++ ';' :: P).length = (B ++ ['/']).length := by
    simp [List.length_append]
    omega
  rw [hlen]
  have htake : ((B ++ '/' :: strL "completions") ++ ';' :: P).take
      (B ++ ['/']).length = B ++ ['/'] := by
    have hassoc : (B ++ '/' :: strL "completions") ++ ';' :: P =
        (B ++ ['/']) ++ (strL "completions" ++ ';' :: P) := by
      simp [List.append_assoc]
    rw [hassoc, List.take_left]
  rw [htake]
  simp [List.append_assoc]

theorem paramStep_chat_nil {scheme B : Str} :
    paramStep scheme (B ++ '/' :: strL "completions") =
      (B ++ '/' :: strL "completions", []) := by
  unfold paramStep
  by_cases hc : usesParams.contains scheme = true ∧
      (B ++ '/' :: strL "completions").contains ';' = true
  · rw [if_pos hc]
    unfold splitparams
    have hslash : (B ++ '/' :: strL "completions").contains '/' = true := by
      unfold List.contains
      apply List.elem_iff.mpr
      exact List.mem_append.mpr (Or.inr (List.mem_cons_self _ _))
    rw [if_pos hslash]
    dsimp only
    have hseg : ((B ++ '/' :: strL "completions").reverse.takeWhile
        (fun c => c ≠ '/')).reverse = strL "completions" :=
      lastSeg_of_append (by decide)
    rw [hseg]
    rw [splitFirst_of_not_mem (by decide : ';' ∉ strL "completions")]
  · rw [if_neg hc]

theorem dropWhile_append_ne_nil {p : Char → Bool} {a b : Str}
    (h : a.dropWhile p ≠ []) :
    (a ++ b).dropWhile p = a.dropWhile p ++ b := by
  induction a with
  | nil => exact absurd rfl h
  | cons x xs ih =>
    simp only [List.cons_append, List.dropWhile_cons]
    rw [List.dropWhile_cons] at h
    by_cases hx : p x = true
    · simp only [if_pos hx]
      rw [if_pos hx] at h
      exact ih h
    · simp only [if_neg hx]
      rfl

theorem dropWhile_ne_nil_of_mem {p : Char → Bool} {a : Str} {x : Char}
    (hm : x ∈ a) (hx : p x = false) : a.dropWhile p ≠ [] := by
  intro hnil
  have := List.dropWhile_eq_nil_iff.mp hnil x hm
  rw [hx] at this
  exact absurd this (by simp)

theorem suffix_getLast {a b : Str} (h : a <:+ b) (hne : a ≠ []) :
    a.getLast? = b.getLast? := by
  obtain ⟨t, rfl⟩ := h
  rw [List.getLast?_append]
  cases ha : a.getLast? with
  | none => exact absurd (List.getLast?_eq_none_iff.mp ha) hne
  | some x => rfl

theorem schemeChar_not_unsafe {c : Char} (h : isSchemeChar c = true) :
    isUnsafe c = false := by
  cases hu : isUnsafe c
  · rfl
  · exfalso
    simp only [isUnsafe, Bool.or_eq_true, decide_eq_true_eq] at hu
    rcases hu with (rfl | rfl) | rfl <;> revert h <;> decide

theorem schemeLike_clean {a : Str} (h : schemeLike a = true) :
    ∀ x ∈ a, isUnsafe x = false := by
  intro x hx
  cases a with
  | nil => simp at hx
  | cons y ys =>
    simp only [schemeLike, Bool.and_eq_true, List.all_eq_true] at h
    exact schemeChar_not_unsafe (h.2 x hx)

theorem ends_slash_decomp {path : Str}
    (h : pyEndsWith path (strL "/") = true) : ∃ w, path = w ++ ['/'] := by
  obtain ⟨w, hw⟩ := pyEndsWith_iff.mp h
  exact ⟨w, hw.symm⟩

theorem head?_mem {l : Str} {x : Char} (h : l.head? = some x) : x ∈ l := by
  cases l with
  | nil => simp at h
  | cons y ys =>
    simp only [List.head?_cons, Option.some.injEq] at h
    subst h
    exact List.mem_cons_self _ _

theorem netDelim_not_strippable {x : Char} (h : isNetDelim x = true) :
    isStrippable x = false := by
  simp only [isNetDelim, Bool.or_eq_true, decide_eq_true_eq] at h
  rcases h with (rfl | rfl) | rfl <;> decide

theorem parse_inv {url : Str} {p : UrlParts} (h : urlparseE url = .ok p) :
    ParseInv p := by
  unfold urlparseE at h
  have hvclean : ∀ x ∈ sanitize url, isUnsafe x = false := sanitize_clean
  have hvhead : ∀ x, (sanitize url).head? = some x → isStrippable x = false :=
    fun x hx => sanitize_head hx
  generalize hveq : sanitize url = v at h hvclean hvhead
  unfold urlparseRaw at h
  cases hsplit : urlsplitRaw v with
  | error e => rw [hsplit] at h; exact absurd h (by simp)
  | ok s =>
    rw [hsplit] at h
    dsimp only at h
    obtain ⟨path0, params0, hps⟩ :
        ∃ a b, paramStep s.scheme s.path = (a, b) := ⟨_, _, rfl⟩
    rw [hps] at h
    dsimp only at h
    injection h with h'
    -- destructure urlsplitRaw
    unfold urlsplitRaw at hsplit
    obtain ⟨sc, u1, hes⟩ : ∃ a b, extractScheme v = (a, b) := ⟨_, _, rfl⟩
    rw [hes] at hsplit
    dsimp only at hsplit
    obtain ⟨nl, u2, hnet⟩ :
        ∃ a b, (if u1.take 2 = ['/', '/'] then splitnetloc (u1.drop 2)
          else ([], u1)) = (a, b) := ⟨_, _, rfl⟩
    rw [hnet] at hsplit
    dsimp only at hsplit
    by_cases hbr : (nl.contains '[') ≠ (nl.contains ']')
    · rw [if_pos hbr] at hsplit
      exact absurd hsplit (by simp)
    rw [if_neg hbr] at hsplit
    have hbre : (nl.contains '[') = (nl.contains ']') := not_ne_iff.mp hbr
    obtain ⟨u3, frag, hfrag⟩ :
        ∃ a b, (match splitFirst '#' u2 with
          | none => (u2, ([] : Str))
          | some p => p) = (a, b) := ⟨_, _, rfl⟩
    rw [hfrag] at hsplit
    dsimp only at hsplit
    obtain ⟨path1, q1, hquery⟩ :
        ∃ a b, (match splitFirst '?' u3 with
          | none => (u3, ([] : Str))
          | some p => p) = (a, b) := ⟨_, _, rfl⟩
    rw [hquery] at hsplit
    injection hsplit with hs'
    subst hs'
    dsimp only at hps h'
    -- scheme facts
    have hscheme_cases := extractScheme_cases hes
    have hu1mem : ∀ x ∈ u1, x ∈ v := by
      rcases hscheme_cases with ⟨_, rfl⟩ | ⟨pre, hvd, _, _, _⟩
      · exact fun x hx => hx
      · intro x hx
        rw [hvd]
        exact List.mem_append.mpr (Or.inr (List.mem_cons_of_mem _ hx))
    -- netloc branch facts
    have hnet_cases :
        ((∀ x ∈ nl, isNetDelim x = false) ∧ (∀ x ∈ nl, x ∈ u1) ∧
          (∀ x ∈ u2, x ∈ u1) ∧
          ((u2 = u1 ∧ nl = []) ∨
            (∀ x, u2.head? = some x → isNetDelim x = true))) := by
      by_cases h2 : u1.take 2 = ['/', '/']
      · rw [if_pos h2] at hnet
        unfold splitnetloc at hnet
        injection hnet with hnl hu2
        constructor
        · intro x hx
          rw [← hnl] at hx
          have hpx := (mem_takeWhile hx).1
          simp only [Bool.not_eq_true'] at hpx
          exact hpx
        constructor
        · intro x hx
          rw [← hnl] at hx
          exact List.drop_subset 2 u1 ((mem_takeWhile hx).2)
        constructor
        · intro x hx
          rw [← hu2] at hx
          exact List.drop_subset 2 u1 (dropWhile_sublist_mem hx)
        · right
          intro x hx
          rw [← hu2] at hx
          have hpx := head_dropWhile_false hx
          simp only [Bool.not_eq_false'] at hpx
          exact hpx
      · rw [if_neg h2] at hnet
        injection hnet with hnl hu2
        refine ⟨?_, ?_, ?_, Or.inl ⟨hu2.symm, hnl.symm⟩⟩
        · intro x hx; rw [← hnl] at hx; simp at hx
        · intro x hx; rw [← hnl] at hx; simp at hx
        · intro x hx; rw [← hu2] at hx; exact hx
    obtain ⟨hnl_nd, hnl_mem, hu2_mem, hu2_shape⟩ := hnet_cases
    -- fragment split facts
    have hfrag_cases :
        (u3 <+: u2) ∧ ('#' ∉ u3) ∧ (∀ x ∈ frag, x ∈ u2) := by
      cases hsf : splitFirst '#' u2 with
      | none =>
        rw [hsf] at hfrag
        injection hfrag with ha hb
        subst ha
        have hnm := splitFirst_eq_none.mp hsf
        exact ⟨List.prefix_rfl, hnm, by rw [← hb]; intro x hx; simp at hx⟩
      | some pr =>
        obtain ⟨a3, b3⟩ := pr
        rw [hsf] at hfrag
        injection hfrag with ha hb
        subst ha
        subst hb
        obtain ⟨hu2e, hna⟩ := splitFirst_eq_some hsf
        refine ⟨⟨'#' :: b3, hu2e.symm⟩, hna, ?_⟩
        intro x hx
        rw [hu2e]
        exact List.mem_append.mpr (Or.inr (List.mem_cons_of_mem _ hx))
    obtain ⟨hu3_pre, hu3_hash, hfrag_mem⟩ := hfrag_cases
    -- query split facts
    have hquery_cases :
        (path1 <+: u3) ∧ ('?' ∉ path1) ∧ (∀ x ∈ q1, x ∈ u3) := by
      cases hsq : splitFirst '?' u3 with
      | none =>
        rw [hsq] at hquery
        injection hquery with ha hb
        subst ha
        have hnm := splitFirst_eq_none.mp hsq
        exact ⟨List.prefix_rfl, hnm, by rw [← hb]; intro x hx; simp at hx⟩
      | some pr =>
        obtain ⟨a4, b4⟩ := pr
        rw [hsq] at hquery
        injection hquery with ha hb
        subst ha
        subst hb
        obtain ⟨hu3e, hna⟩ := splitFirst_eq_some hsq
        refine ⟨⟨'?' :: b4, hu3e.symm⟩, hna, ?_⟩
        intro x hx
        rw [hu3e]
        exact List.mem_append.mpr (Or.inr (List.mem_cons_of_mem _ hx))
    obtain ⟨hpath1_pre, hpath1_qm, hq1_mem⟩ := hquery_cases
    -- params facts
    obtain ⟨hpath0_pre, hparams0_mem, hparams0_slash⟩ := paramStep_facts hps
    -- membership chains
    have hpath1_mem : ∀ x ∈ path1, x ∈ v := fun x hx =>
      hu1mem _ (hu2_mem _ (hu3_pre.subset (hpath1_pre.subset hx)))
    have hpath0_mem : ∀ x ∈ path0, x ∈ v := fun x hx =>
      hpath1_mem _ (hpath0_pre.subset hx)
    have hpath0_u2 : path0 <+: u2 :=
      (hpath0_pre.trans hpath1_pre).trans hu3_pre
    have hpath1_hash : '#' ∉ path1 := fun hx => hu3_hash (hpath1_pre.subset hx)
    subst h'
    refine ⟨?_, ?_, ?_, ?_, ?_, ?_, ?_, ?_, ?_, ?_, ?_, ?_, ?_, ?_, ?_, ?_,
      ?_, ?_, ?_⟩
    · show sc = [] ∨ schemeLike sc = true
      rcases hscheme_cases with ⟨rfl, _⟩ | ⟨pre, _, _, hpl, rfl⟩
      · exact Or.inl rfl
      · exact Or.inr (schemeLike_map_lower hpl)
    · show ∀ x ∈ nl, isNetDelim x = false
      exact hnl_nd
    · show (nl.contains '[') = (nl.contains ']')
      exact hbre
    · show '#' ∉ path0
      exact fun hx => hpath1_hash (hpath0_pre.subset hx)
    · show '?' ∉ path0
      exact fun hx => hpath1_qm (hpath0_pre.subset hx)
    · show '#' ∉ params0
      exact fun hx => hu3_hash (hpath1_pre.subset (hparams0_mem _ hx))
    · show '?' ∉ params0
      exact fun hx => hpath1_qm (hparams0_mem _ hx)
    · show '/' ∉ params0
      exact hparams0_slash
    · show '#' ∉ q1
      exact fun hx => hu3_hash (hq1_mem _ hx)
    · show ∀ x ∈ sc, isUnsafe x = false
      rcases hscheme_cases with ⟨rfl, _⟩ | ⟨pre, _, _, hpl, rfl⟩
      · intro x hx; simp at hx
      · exact schemeLike_clean (schemeLike_map_lower hpl)
    · show ∀ x ∈ nl, isUnsafe x = false
      exact fun x hx => hvclean x (hu1mem _ (hnl_mem _ hx))
    · show ∀ x ∈ path0, isUnsafe x = false
      exact fun x hx => hvclean x (hpath0_mem _ hx)
    · show ∀ x ∈ params0, isUnsafe x = false
      exact fun x hx => hvclean x (hpath1_mem _ (hparams0_mem _ hx))
    · show ∀ x ∈ q1, isUnsafe x = false
      intro x hx
      exact hvclean x (hu1mem _ (hu2_mem _ (hu3_pre.subset (hq1_mem _ hx))))
    · show ∀ x ∈ frag, isUnsafe x = false
      exact fun x hx => hvclean x (hu1mem _ (hu2_mem _ (hfrag_mem _ hx)))
    · show sc = [] → nl = [] →
        ∀ x, path0.head? = some x → isStrippable x = false
      intro hsc0 hnl0 x hx
      have hpne : path0 ≠ [] := by
        intro hnil
        rw [hnil] at hx
        simp at hx
      have hpu2 : path0.head? = u2.head? := prefix_head hpath0_u2 hpne
      rcases hu2_shape with ⟨hu2v, _⟩ | hdelim
      · rcases hscheme_cases with ⟨_, hu1v⟩ | ⟨pre, _, _, hpl, hscdef⟩
        · subst hu1v
          rw [hu2v] at hpu2
          rw [hpu2] at hx
          exact hvhead x hx
        · exfalso
          rw [hscdef] at hsc0
          cases pre with
          | nil => simp [schemeLike] at hpl
          | cons z zs => simp at hsc0
      · have hd : isNetDelim x = true := by
          apply hdelim
          rw [← hpu2]
          exact hx
        exact netDelim_not_strippable hd
    · show sc = [] → nl = [] →
        ∀ a b, splitFirst ':' path0 = some (a, b) → schemeLike a = false
      intro hsc0 hnl0 a b hsp0
      obtain ⟨hpd, hna⟩ := splitFirst_eq_some hsp0
      cases a with
      | nil => simp [schemeLike]
      | cons y ys =>
        have hyhead : path0.head? = some y := by rw [hpd]; rfl
        rcases hu2_shape with ⟨hu2v, _⟩ | hdelim
        · rcases hscheme_cases with ⟨_, hu1v⟩ | ⟨pre, _, _, hpl, hscdef⟩
          · subst hu1v
            rw [hu2v] at hpath0_u2
            obtain ⟨w, hw⟩ := hpath0_u2
            have hsplitv : splitFirst ':' u1 = some (y :: ys, b ++ w) := by
              rw [← hw, hpd, List.append_assoc]
              exact splitFirst_exact hna
            unfold extractScheme at hes
            rw [hsplitv] at hes
            dsimp only at hes
            by_cases hsl : schemeLike (y :: ys) = true
            · rw [if_pos hsl] at hes
              injection hes with h1 h2
              exfalso
              rw [hsc0] at h1
              simp at h1
            · exact Bool.not_eq_true _ |>.mp hsl
          · exfalso
            rw [hscdef] at hsc0
            cases pre with
            | nil => simp [schemeLike] at hpl
            | cons z zs => simp at hsc0
        · have hymem : y ∈ path0 := by
            rw [hpd]
            exact List.mem_append.mpr (Or.inl (List.mem_cons_self _ _))
          have hd : isNetDelim y = true := by
            apply hdelim
            rw [← prefix_head hpath0_u2 ?hne]
            · exact hyhead
            case hne =>
              rw [hpd]
              simp
          simp only [isNetDelim, Bool.or_eq_true, decide_eq_true_eq] at hd
          rcases hd with (rfl | rfl) | rfl
          · simp only [schemeLike, Bool.and_eq_false_iff]
            left
            decide
          · exact absurd (hpath1_qm (hpath0_pre.subset hymem)) (fun hq => hq)
          · exact absurd (hpath1_hash (hpath0_pre.subset hymem)) (fun hq => hq)
    · show params0 ≠ [] → usesParams.contains sc = true
      exact fun hne => paramStep_scheme_of_params hps hne
    · show sc.map asciiLower = sc
      rcases hscheme_cases with ⟨rfl, _⟩ | ⟨pre, _, _, _, rfl⟩
      · rfl
      · exact map_asciiLower_idem pre

theorem takeWhile_append_ne_nil {p : Char → Bool} {a b : Str}
    (h : a.dropWhile p ≠ []) :
    (a ++ b).takeWhile p = a.takeWhile p := by
  induction a with
  | nil => exact absurd rfl h
  | cons x xs ih =>
    simp only [List.cons_append, List.takeWhile_cons]
    rw [List.dropWhile_cons] at h
    by_cases hx : p x = true
    · simp only [if_pos hx]
      rw [if_pos hx] at h
      rw [ih h]
    · simp only [if_neg hx]

theorem getLast_decomp {l : Str} {x : Char} (h : l.getLast? = some x) :
    ∃ w, l = w ++ [x] := by
  refine ⟨l.dropLast, ?_⟩
  exact (List.dropLast_append_getLast? x h).symm

theorem appendChat_scheme_safe {path TAIL : Str}
    (hsafe : ∀ a b, splitFirst ':' path = some (a, b) → schemeLike a = false) :
    ∀ a b, splitFirst ':' (appendChat path ++ TAIL) = some (a, b) →
      schemeLike a = false := by
  intro a b hsp
  obtain ⟨ext, hext, hor⟩ := appendChat_ext path
  by_cases hc : ':' ∈ path
  · obtain ⟨a0, b0, h0⟩ : ∃ a0 b0, splitFirst ':' path = some (a0, b0) := by
      cases hsp0 : splitFirst ':' path with
      | none => exact absurd hc (splitFirst_eq_none.mp hsp0)
      | some pr =>
        obtain ⟨a0, b0⟩ := pr
        exact ⟨a0, b0, rfl⟩
    obtain ⟨hpd, hna⟩ := splitFirst_eq_some h0
    have hform : appendChat path ++ TAIL = a0 ++ ':' :: (b0 ++ (ext ++ TAIL)) := by
      rw [hext, hpd]
      simp [List.append_assoc]
    rw [hform, splitFirst_exact hna] at hsp
    simp only [Option.some.injEq, Prod.mk.injEq] at hsp
    rw [← hsp.1]
    exact hsafe a0 b0 h0
  · have hnc : ':' ∉ appendChat path := appendChat_not_mem hc (by decide)
    rw [splitFirst_append_left hnc] at hsp
    cases hT : splitFirst ':' TAIL with
    | none => rw [hT] at hsp; simp [Option.map_none'] at hsp
    | some pr =>
      obtain ⟨a1, b1⟩ := pr
      rw [hT] at hsp
      simp only [Option.map_some', Option.some.injEq, Prod.mk.injEq] at hsp
      obtain ⟨ha, hb⟩ := hsp
      rw [← ha]
      apply slash_not_schemeLike
      apply List.mem_append.mpr
      left
      obtain ⟨B, hB⟩ := appendChat_decompB path
      rw [hB]
      exact List.mem_append.mpr (Or.inr (List.mem_cons_self _ _))

theorem assemble_fixed {r sc2 u1v nl2 u2v u3v fragv X qv path0 prms : Str}
    (hsan : sanitize r = r)
    (h1 : extractScheme r = (sc2, u1v))
    (h2 : (if u1v.take 2 = ['/', '/'] then splitnetloc (u1v.drop 2)
      else ([], u1v)) = (nl2, u2v))
    (h3 : (nl2.contains '[') = (nl2.contains ']'))
    (h4 : (match splitFirst '#' u2v with
      | none => (u2v, ([] : Str))
      | some pr => pr) = (u3v, fragv))
    (h5 : (match splitFirst '?' u3v with
      | none => (u3v, ([] : Str))
      | some pr => pr) = (X, qv))
    (hps : paramStep sc2 X = (path0, prms))
    (hends : pyEndsWith path0 chatSuffix = true) :
    getApiUrl r = r := by
  have hsplit := urlsplitRaw_build h1 h2 h3 h4 h5
  have hparse : urlparseE r = .ok ⟨sc2, nl2, path0, prms, qv, fragv⟩ := by
    unfold urlparseE
    rw [hsan]
    exact urlparseRaw_build hsplit hps
  exact getApiUrl_suffix_aux hparse hends

theorem assemble_error {r sc2 u1v nl2 u2v : Str}
    (hsan : sanitize r = r)
    (h1 : extractScheme r = (sc2, u1v))
    (h2 : (if u1v.take 2 = ['/', '/'] then splitnetloc (u1v.drop 2)
      else ([], u1v)) = (nl2, u2v))
    (h3 : (nl2.contains '[') ≠ (nl2.contains ']')) :
    getApiUrl r = r := by
  have hsplit := urlsplitRaw_error h1 h2 h3
  have hparse : urlparseE r =
      .error (.valueError (strL "Invalid IPv6 URL")) := by
    unfold urlparseE
    rw [hsan]
    exact urlparseRaw_error hsplit
  exact getApiUrl_error_aux hparse

theorem clean_append {a b : Str} (ha : ∀ x ∈ a, isUnsafe x = false)
    (hb : ∀ x ∈ b, isUnsafe x = false) :
    ∀ x ∈ a ++ b, isUnsafe x = false := by
  intro x hx
  rcases List.mem_append.mp hx with hm | hm
  · exact ha x hm
  · exact hb x hm

theorem clean_cons {c : Char} {b : Str} (hc : isUnsafe c = false)
    (hb : ∀ x ∈ b, isUnsafe x = false) :
    ∀ x ∈ c :: b, isUnsafe x = false := by
  intro x hx
  rcases List.mem_cons.mp hx with rfl | hm
  · exact hc
  · exact hb x hm

theorem head?_append_left {a b : Str} (h : a ≠ []) :
    (a ++ b).head? = a.head? := by
  cases a with
  | nil => exact absurd rfl h
  | cons x xs => rfl

theorem chat_netloc_split {path : Str} (hpp : path.take 2 = ['/', '/'])
    (hne2 : path ≠ strL "//") :
    ((appendChat path).drop 2).dropWhile (fun c => !isNetDelim c) ≠ [] ∧
      pyEndsWith
        (((appendChat path).drop 2).dropWhile (fun c => !isNetDelim c))
        chatSuffix = true := by
  obtain ⟨rest, hrest⟩ : ∃ rest, path = '/' :: '/' :: rest := by
    cases path with
    | nil => simp at hpp
    | cons x xs =>
      cases xs with
      | nil => simp at hpp
      | cons y ys =>
        have hpp2 : [x, y] = ['/', '/'] := hpp
        injection hpp2 with h1 h2
        injection h2 with h2 h3
        subst h1
        subst h2
        exact ⟨ys, rfl⟩
  subst hrest
  unfold appendChat
  by_cases hes : pyEndsWith ('/' :: '/' :: rest) (strL "/") = true
  · rw [if_pos hes]
    have hrne : rest ≠ [] := by
      intro h0
      subst h0
      exact hne2 rfl
    have hdrop : (('/' :: '/' :: rest) ++ strL "chat/completions").drop 2 =
        rest ++ strL "chat/completions" := rfl
    rw [hdrop]
    have hlast : rest.getLast? = some '/' := by
      obtain ⟨w, hw⟩ := ends_slash_decomp hes
      have hsuf : rest <:+ '/' :: '/' :: rest := ⟨['/', '/'], rfl⟩
      rw [suffix_getLast hsuf hrne, hw]
      exact List.getLast?_concat w
    have hmem : '/' ∈ rest := by
      obtain ⟨w1, hw1⟩ := getLast_decomp hlast
      rw [hw1]
      exact List.mem_append.mpr (Or.inr (List.mem_cons_self _ _))
    have hdw_ne : rest.dropWhile (fun c => !isNetDelim c) ≠ [] :=
      dropWhile_ne_nil_of_mem hmem (by decide)
    rw [dropWhile_append_ne_nil hdw_ne]
    refine ⟨fun h0 => hdw_ne (List.append_eq_nil.mp h0).1, ?_⟩
    have hZ1suf : rest.dropWhile (fun c => !isNetDelim c) <:+ rest :=
      List.dropWhile_suffix _
    have hZ1last : (rest.dropWhile (fun c => !isNetDelim c)).getLast? =
        some '/' := by
      rw [suffix_getLast hZ1suf hdw_ne]
      exact hlast
    obtain ⟨w1, hw1⟩ := getLast_decomp hZ1last
    rw [hw1]
    apply pyEndsWith_iff.mpr
    refine ⟨w1, ?_⟩
    rw [chatSuffix_cons]
    simp [List.append_assoc]
  · rw [if_neg (fun hc => hes hc)]
    have hdrop : (('/' :: '/' :: rest) ++ chatSuffix).drop 2 =
        rest ++ chatSuffix := rfl
    rw [hdrop]
    by_cases hdw : rest.dropWhile (fun c => !isNetDelim c) = []
    · have hall : ∀ x ∈ rest, (fun c => !isNetDelim c) x = true :=
        List.dropWhile_eq_nil_iff.mp hdw
      rw [dropWhile_append_all hall]
      refine ⟨by decide, by decide⟩
    · rw [dropWhile_append_ne_nil hdw]
      refine ⟨fun h0 => hdw (List.append_eq_nil.mp h0).1, ?_⟩
      apply pyEndsWith_iff.mpr
      exact ⟨_, rfl⟩

theorem reparse_fixed {p : UrlParts} (hinv : ParseInv p)
    (hexcl : ¬(p.netloc = [] ∧ p.path = strL "//")) :
    getApiUrl (urlunparse p.scheme p.netloc (appendChat p.path) p.params
      p.query p.fragment) =
      urlunparse p.scheme p.netloc (appendChat p.path) p.params p.query
        p.fragment := by
  obtain ⟨hscheme_ok, hnl_nd, hnl_br, hpath_hash, hpath_qm, hpar_hash,
    hpar_qm, hpar_slash, hq_hash, hcl_sc, hcl_nl, hcl_path, hcl_par, hcl_q,
    hcl_f, hpath_head, hpath_safe, hpar_scheme, hsch_lower⟩ := hinv
  set N := appendChat p.path with hNdef
  obtain ⟨B, hB⟩ := appendChat_decompB p.path
  obtain ⟨ext, hext, hor⟩ := appendChat_ext p.path
  rw [← hNdef] at hB hext
  have hNne : N ≠ [] := appendChat_ne_nil p.path
  have hNlen : 2 ≤ N.length := appendChat_len p.path
  have hNhash : '#' ∉ N := appendChat_not_mem hpath_hash (by decide)
  have hNqm : '?' ∉ N := appendChat_not_mem hpath_qm (by decide)
  have hNends : pyEndsWith N chatSuffix = true := appendChat_ends p.path
  have hNclean : ∀ x ∈ N, isUnsafe x = false := by
    intro x hx
    rw [hext] at hx
    rcases List.mem_append.mp hx with hm | hm
    · exact hcl_path x hm
    · rcases hor with rfl | rfl
      · exact (by decide :
          ∀ y ∈ strL "chat/completions", isUnsafe y = false) x hm
      · exact (by decide :
          ∀ y ∈ strL "/chat/completions", isUnsafe y = false) x hm
  obtain ⟨semi, hu0, hsemi⟩ :
      ∃ semi, (if p.params ≠ [] then N ++ ';' :: p.params else N) =
        N ++ semi ∧
        (semi = [] ∨ (semi = ';' :: p.params ∧ p.params ≠ [])) := by
    by_cases hp : p.params ≠ []
    · exact ⟨';' :: p.params, by rw [if_pos hp], Or.inr ⟨rfl, hp⟩⟩
    · exact ⟨[], by rw [if_neg hp]; simp, Or.inl rfl⟩
  have hsemi_hash : '#' ∉ semi := by
    rcases hsemi with rfl | ⟨rfl, -⟩
    · simp
    · intro hm
      rcases List.mem_cons.mp hm with h1 | h1
      · exact absurd h1 (by decide)
      · exact hpar_hash h1
  have hsemi_qm : '?' ∉ semi := by
    rcases hsemi with rfl | ⟨rfl, -⟩
    · simp
    · intro hm
      rcases List.mem_cons.mp hm with h1 | h1
      · exact absurd h1 (by decide)
      · exact hpar_qm h1
  have hsemi_clean : ∀ x ∈ semi, isUnsafe x = false := by
    rcases hsemi with rfl | ⟨rfl, -⟩
    · intro x hx; simp at hx
    · intro x hx
      rcases List.mem_cons.mp hx with rfl | h1
      · decide
      · exact hcl_par x h1
  have hparam : ∀ A : Str, ∃ prms,
      paramStep p.scheme ((A ++ '/' :: strL "completions") ++ semi) =
        (A ++ '/' :: strL "completions", prms) := by
    intro A
    rcases hsemi with rfl | ⟨rfl, hpne⟩
    · rw [List.append_nil]
      exact ⟨[], paramStep_chat_nil⟩
    · exact ⟨p.params,
        paramStep_chat_params (hpar_scheme hpne) hpar_slash⟩
  have hu0len : 2 ≤ (N ++ semi).length := by
    rw [List.length_append]
    omega
  have hu0hash : '#' ∉ N ++ semi := by
    intro hm
    rcases List.mem_append.mp hm with hm | hm
    · exact hNhash hm
    · exact hsemi_hash hm
  have hu0qm : '?' ∉ N ++ semi := by
    intro hm
    rcases List.mem_append.mp hm with hm | hm
    · exact hNqm hm
    · exact hsemi_qm hm
  have hu0clean : ∀ x ∈ N ++ semi, isUnsafe x = false :=
    clean_append hNclean hsemi_clean
  have hQclean : ∀ x ∈ (if p.query ≠ [] then '?' :: p.query else []),
      isUnsafe x = false := by
    by_cases hq : p.query ≠ []
    · rw [if_pos hq]
      exact clean_cons (by decide) hcl_q
    · rw [if_neg hq]
      intro x hx
      simp at hx
  have hFclean : ∀ x ∈ (if p.fragment ≠ [] then '#' :: p.fragment else []),
      isUnsafe x = false := by
    by_cases hf : p.fragment ≠ []
    · rw [if_pos hf]
      exact clean_cons (by decide) hcl_f
    · rw [if_neg hf]
      intro x hx
      simp at hx
  have hQFclean : ∀ x ∈ (if p.query ≠ [] then '?' :: p.query else []) ++
      (if p.fragment ≠ [] then '#' :: p.fragment else []),
      isUnsafe x = false := clean_append hQclean hFclean
  have htail : ∀ X : Str, '#' ∉ X → '?' ∉ X →
      ∃ u3v fragv qv,
        (match splitFirst '#'
            (X ++ ((if p.query ≠ [] then '?' :: p.query else []) ++
              (if p.fragment ≠ [] then '#' :: p.fragment else []))) with
         | none =>
           (X ++ ((if p.query ≠ [] then '?' :: p.query else []) ++
             (if p.fragment ≠ [] then '#' :: p.fragment else [])), ([] : Str))
         | some pr => pr) = (u3v, fragv) ∧
        (match splitFirst '?' u3v with
         | none => (u3v, ([] : Str))
         | some pr => pr) = (X, qv) := by
    intro X hx1 hx2
    by_cases hq : p.query ≠ [] <;> by_cases hf : p.fragment ≠ []
    · refine ⟨X ++ '?' :: p.query, p.fragment, p.query, ?_, ?_⟩
      · rw [if_pos hq, if_pos hf]
        have hsh : X ++ ('?' :: p.query ++ '#' :: p.fragment) =
            (X ++ '?' :: p.query) ++ '#' :: p.fragment := by
          simp [List.append_assoc]
        rw [hsh, splitFirst_exact]
        intro hm
        rcases List.mem_append.mp hm with hm | hm
        · exact hx1 hm
        · rcases List.mem_cons.mp hm with h1 | h1
          · exact absurd h1 (by decide)
          · exact hq_hash h1
      · rw [splitFirst_exact hx2]
    · refine ⟨X ++ '?' :: p.query, [], p.query, ?_, ?_⟩
      · rw [if_pos hq, if_neg hf]
        rw [List.append_nil]
        rw [splitFirst_of_not_mem]
        intro hm
        rcases List.mem_append.mp hm with hm | hm
        · exact hx1 hm
        · rcases List.mem_cons.mp hm with h1 | h1
          · exact absurd h1 (by decide)
          · exact hq_hash h1
      · rw [splitFirst_exact hx2]
    · refine ⟨X, p.fragment, [], ?_, ?_⟩
      · rw [if_neg hq, if_pos hf]
        rw [List.nil_append, splitFirst_exact hx1]
      · rw [splitFirst_of_not_mem hx2]
    · refine ⟨X, [], [], ?_, ?_⟩
      · rw [if_neg hq, if_neg hf]
        rw [List.append_nil, List.append_nil, splitFirst_of_not_mem hx1]
      · rw [splitFirst_of_not_mem hx2]
  have hSstep : ∀ REST : Str,
      (p.scheme = [] → ∀ a b, splitFirst ':' REST = some (a, b) →
        schemeLike a = false) →
      extractScheme
        ((if p.scheme ≠ [] then p.scheme ++ [':'] else []) ++ REST) =
        (p.scheme, REST) := by
    intro REST hsafe
    by_cases hs : p.scheme = []
    · rw [hs]
      rw [if_neg (show ¬(([] : Str) ≠ []) from fun h => h rfl),
        List.nil_append]
      exact extractScheme_no_scheme (hsafe hs)
    · have hsl : schemeLike p.scheme = true := hscheme_ok.resolve_left hs
      rw [if_pos hs]
      have hsh : (p.scheme ++ [':']) ++ REST = p.scheme ++ ':' :: REST := by
        simp
      rw [hsh, extractScheme_of_scheme hsl, hsch_lower]
  have hShead : ∀ REST : Str,
      (p.scheme = [] → ∀ x, REST.head? = some x → isStrippable x = false) →
      ∀ x, ((if p.scheme ≠ [] then p.scheme ++ [':'] else []) ++
        REST).head? = some x → isStrippable x = false := by
    intro REST hrest x hx
    by_cases hs : p.scheme = []
    · rw [hs] at hx
      rw [if_neg (show ¬(([] : Str) ≠ []) from fun h => h rfl),
        List.nil_append] at hx
      exact hrest hs x hx
    · have hsl : schemeLike p.scheme = true := hscheme_ok.resolve_left hs
      rw [if_pos hs] at hx
      rw [head?_append_left (by simp [hs]), head?_append_left hs] at hx
      exact asciiAlpha_not_strippable (schemeLike_head_alpha hsl hx)
  have hSclean : ∀ x ∈ (if p.scheme ≠ [] then p.scheme ++ [':'] else []),
      isUnsafe x = false := by
    by_cases hs : p.scheme ≠ []
    · rw [if_pos hs]
      exact clean_append hcl_sc (by decide)
    · rw [if_neg hs]
      intro x hx
      simp at hx
  -- assemble the reassembled URL in head-normal form
  have hru : urlunparse p.scheme p.netloc N p.params p.query p.fragment =
      (if p.scheme ≠ [] then p.scheme ++ [':'] else []) ++
      ((if p.netloc ≠ [] ∨
          (p.scheme ≠ [] ∧ usesNetloc.contains p.scheme ∧
            (N ++ semi).take 2 ≠ ['/', '/']) then
        ['/', '/'] ++ p.netloc ++
          (if N ++ semi ≠ [] ∧ (N ++ semi).head? ≠ some '/' then
            '/' :: (N ++ semi) else N ++ semi)
      else N ++ semi) ++
      ((if p.query ≠ [] then '?' :: p.query else []) ++
       (if p.fragment ≠ [] then '#' :: p.fragment else []))) := by
    unfold urlunparse
    rw [hu0]
    exact urlunsplit_decomp p.scheme p.netloc (N ++ semi) p.query p.fragment
  rw [hru]
  by_cases hcond : p.netloc ≠ [] ∨
      (p.scheme ≠ [] ∧ usesNetloc.contains p.scheme ∧
        (N ++ semi).take 2 ≠ ['/', '/'])
  · -- authority is written out: `//netloc` followed by a slash-led path
    rw [if_pos hcond]
    obtain ⟨M, hENS, hEhead, hM⟩ :
        ∃ M, (if N ++ semi ≠ [] ∧ (N ++ semi).head? ≠ some '/' then
          '/' :: (N ++ semi) else N ++ semi) = M ++ (N ++ semi) ∧
          (M ++ (N ++ semi)).head? = some '/' ∧ (M = [] ∨ M = ['/']) := by
      by_cases he : N ++ semi ≠ [] ∧ (N ++ semi).head? ≠ some '/'
      · exact ⟨['/'], by rw [if_pos he]; rfl, rfl, Or.inr rfl⟩
      · have hne2 : N ++ semi ≠ [] :=
          fun h0 => hNne (List.append_eq_nil.mp h0).1
        have hh : (N ++ semi).head? = some '/' := by
          by_contra hcon
          exact he ⟨hne2, hcon⟩
        refine ⟨[], by rw [if_neg he]; simp, ?_, Or.inl rfl⟩
        rw [List.nil_append]
        exact hh
    rw [hENS]
    have hXne : M ++ (N ++ semi) ≠ [] := by
      intro h0
      rw [h0] at hEhead
      simp at hEhead
    have hshape : (['/', '/'] ++ p.netloc ++ (M ++ (N ++ semi))) ++
        ((if p.query ≠ [] then '?' :: p.query else []) ++
         (if p.fragment ≠ [] then '#' :: p.fragment else [])) =
        '/' :: '/' :: (p.netloc ++ ((M ++ (N ++ semi)) ++
          ((if p.query ≠ [] then '?' :: p.query else []) ++
           (if p.fragment ≠ [] then '#' :: p.fragment else [])))) := by
      simp [List.append_assoc]
    rw [hshape]
    have hXhash : '#' ∉ M ++ (N ++ semi) := by
      intro hm
      rcases List.mem_append.mp hm with hm | hm
      · rcases hM with rfl | rfl
        · simp at hm
        · exact absurd (List.mem_singleton.mp hm) (by decide)
      · exact hu0hash hm
    have hXqm : '?' ∉ M ++ (N ++ semi) := by
      intro hm
      rcases List.mem_append.mp hm with hm | hm
      · rcases hM with rfl | rfl
        · simp at hm
        · exact absurd (List.mem_singleton.mp hm) (by decide)
      · exact hu0qm hm
    obtain ⟨u3v, fragv, qv, h4, h5⟩ := htail (M ++ (N ++ semi)) hXhash hXqm
    obtain ⟨prms, hps⟩ := hparam (M ++ B)
    have hpse : paramStep p.scheme (M ++ (N ++ semi)) = (M ++ N, prms) := by
      have hMN : M ++ (N ++ semi) =
          ((M ++ B) ++ '/' :: strL "completions") ++ semi := by
        rw [hB]
        simp [List.append_assoc]
      have hMN2 : (M ++ B) ++ '/' :: strL "completions" = M ++ N := by
        rw [hB]
        simp [List.append_assoc]
      rw [hMN, hps, hMN2]
    have hends : pyEndsWith (M ++ N) chatSuffix = true :=
      pyEndsWith_append hNends
    -- scheme step
    have h1 := hSstep
      ('/' :: '/' :: (p.netloc ++ ((M ++ (N ++ semi)) ++
        ((if p.query ≠ [] then '?' :: p.query else []) ++
         (if p.fragment ≠ [] then '#' :: p.fragment else [])))))
      (fun _ => head_not_alpha_scheme_safe rfl (by decide))
    -- netloc step
    have h2 : (if ('/' :: '/' :: (p.netloc ++ ((M ++ (N ++ semi)) ++
        ((if p.query ≠ [] then '?' :: p.query else []) ++
         (if p.fragment ≠ [] then '#' :: p.fragment else []))))).take 2 =
          ['/', '/'] then
        splitnetloc (('/' :: '/' :: (p.netloc ++ ((M ++ (N ++ semi)) ++
          ((if p.query ≠ [] then '?' :: p.query else []) ++
           (if p.fragment ≠ [] then '#' :: p.fragment else []))))).drop 2)
        else ([], '/' :: '/' :: (p.netloc ++ ((M ++ (N ++ semi)) ++
          ((if p.query ≠ [] then '?' :: p.query else []) ++
           (if p.fragment ≠ [] then '#' :: p.fragment else [])))))) =
        (p.netloc, (M ++ (N ++ semi)) ++
          ((if p.query ≠ [] then '?' :: p.query else []) ++
           (if p.fragment ≠ [] then '#' :: p.fragment else []))) := by
      rw [if_pos (show ('/' :: '/' :: (p.netloc ++ ((M ++ (N ++ semi)) ++
          ((if p.query ≠ [] then '?' :: p.query else []) ++
           (if p.fragment ≠ [] then '#' :: p.fragment else []))))).take 2 =
          ['/', '/'] from rfl)]
      show splitnetloc (p.netloc ++ ((M ++ (N ++ semi)) ++
          ((if p.query ≠ [] then '?' :: p.query else []) ++
           (if p.fragment ≠ [] then '#' :: p.fragment else [])))) = _
      rw [splitnetloc_exact hnl_nd]
      intro x hx
      rw [head?_append_left hXne] at hx
      rw [hEhead] at hx
      injection hx with hx
      subst hx
      decide
    -- sanitization is the identity here
    have hsan : sanitize ((if p.scheme ≠ [] then p.scheme ++ [':'] else []) ++
        ('/' :: '/' :: (p.netloc ++ ((M ++ (N ++ semi)) ++
          ((if p.query ≠ [] then '?' :: p.query else []) ++
           (if p.fragment ≠ [] then '#' :: p.fragment else [])))))) =
        ((if p.scheme ≠ [] then p.scheme ++ [':'] else []) ++
        ('/' :: '/' :: (p.netloc ++ ((M ++ (N ++ semi)) ++
          ((if p.query ≠ [] then '?' :: p.query else []) ++
           (if p.fragment ≠ [] then '#' :: p.fragment else [])))))) := by
      apply sanitize_eq_self
      · apply hShead
        intro _ x hx
        injection hx with hx
        subst hx
        decide
      · apply clean_append hSclean
        apply clean_cons (by decide)
        apply clean_cons (by decide)
        apply clean_append hcl_nl
        apply clean_append ?_ hQFclean
        apply clean_append ?_ hu0clean
        rcases hM with rfl | rfl
        · intro x hx; simp at hx
        · intro x hx
          rcases List.mem_singleton.mp hx with rfl
          decide
    exact assemble_fixed hsan h1 h2 hnl_br h4 h5 hpse hends
  · -- no authority is written out
    rw [if_neg hcond]
    have hnl0 : p.netloc = [] := by
      by_contra hnl
      exact hcond (Or.inl hnl)
    by_cases h2c : (N ++ semi).take 2 = ['/', '/']
    · -- the reassembled URL starts `//`: reparsing eats into the path
      have hNtake : N.take 2 = ['/', '/'] := by
        have h := h2c
        rw [List.take_append_of_le_length hNlen] at h
        exact h
      have hptake : p.path.take 2 = ['/', '/'] := appendChat_take2_mp hNtake
      have hpne2 : p.path ≠ strL "//" := fun hpp => hexcl ⟨hnl0, hpp⟩
      obtain ⟨hZne, hZends⟩ := chat_netloc_split hptake hpne2
      have hNhead : (N ++ semi).head? = some '/' := by
        cases hN0 : N with
        | nil => exact absurd hN0 hNne
        | cons c cs =>
          rw [hN0] at hNtake hNlen
          cases cs with
          | nil =>
            rw [List.length_singleton] at hNlen
            omega
          | cons d ds =>
            have : [c, d] = ['/', '/'] := hNtake
            injection this with e1 e2
            subst e1
            rfl
      have h1 := hSstep
        ((N ++ semi) ++
          ((if p.query ≠ [] then '?' :: p.query else []) ++
           (if p.fragment ≠ [] then '#' :: p.fragment else [])))
        (fun _ => by
          apply head_not_alpha_scheme_safe
          · rw [head?_append_left (fun h0 =>
              hNne (List.append_eq_nil.mp h0).1)]
            exact hNhead
          · decide)
      have hdrop2 : ((N ++ semi) ++
          ((if p.query ≠ [] then '?' :: p.query else []) ++
           (if p.fragment ≠ [] then '#' :: p.fragment else []))).drop 2 =
          (N.drop 2 ++ semi) ++
          ((if p.query ≠ [] then '?' :: p.query else []) ++
           (if p.fragment ≠ [] then '#' :: p.fragment else [])) := by
        rw [List.drop_append_of_le_length hu0len,
          List.drop_append_of_le_length hNlen]
      have htake2 : ((N ++ semi) ++
          ((if p.query ≠ [] then '?' :: p.query else []) ++
           (if p.fragment ≠ [] then '#' :: p.fragment else []))).take 2 =
          ['/', '/'] := by
        rw [List.take_append_of_le_length hu0len]
        exact h2c
      -- the netloc candidate and path remainder after reparsing
      have hdw1 : (N.drop 2 ++ semi).dropWhile (fun c => !isNetDelim c) =
          (N.drop 2).dropWhile (fun c => !isNetDelim c) ++ semi :=
        dropWhile_append_ne_nil hZne
      have hdw1ne : (N.drop 2 ++ semi).dropWhile (fun c => !isNetDelim c) ≠
          [] := by
        rw [hdw1]
        exact fun h0 => hZne (List.append_eq_nil.mp h0).1
      have hdw2 : ((N.drop 2 ++ semi) ++
          ((if p.query ≠ [] then '?' :: p.query else []) ++
           (if p.fragment ≠ [] then '#' :: p.fragment else []))).dropWhile
            (fun c => !isNetDelim c) =
          ((N.drop 2).dropWhile (fun c => !isNetDelim c) ++ semi) ++
          ((if p.query ≠ [] then '?' :: p.query else []) ++
           (if p.fragment ≠ [] then '#' :: p.fragment else [])) := by
        rw [dropWhile_append_ne_nil hdw1ne, hdw1]
      have htw2 : ((N.drop 2 ++ semi) ++
          ((if p.query ≠ [] then '?' :: p.query else []) ++
           (if p.fragment ≠ [] then '#' :: p.fragment else []))).takeWhile
            (fun c => !isNetDelim c) =
          (N.drop 2).takeWhile (fun c => !isNetDelim c) := by
        rw [takeWhile_append_ne_nil hdw1ne, takeWhile_append_ne_nil hZne]
      have h2 : (if ((N ++ semi) ++
          ((if p.query ≠ [] then '?' :: p.query else []) ++
           (if p.fragment ≠ [] then '#' :: p.fragment else []))).take 2 =
            ['/', '/'] then
          splitnetloc (((N ++ semi) ++
            ((if p.query ≠ [] then '?' :: p.query else []) ++
             (if p.fragment ≠ [] then '#' :: p.fragment else []))).drop 2)
          else ([], (N ++ semi) ++
            ((if p.query ≠ [] then '?' :: p.query else []) ++
             (if p.fragment ≠ [] then '#' :: p.fragment else [])))) =
          ((N.drop 2).takeWhile (fun c => !isNetDelim c),
            ((N.drop 2).dropWhile (fun c => !isNetDelim c) ++ semi) ++
            ((if p.query ≠ [] then '?' :: p.query else []) ++
             (if p.fragment ≠ [] then '#' :: p.fragment else []))) := by
        rw [if_pos htake2, hdrop2]
        unfold splitnetloc
        rw [htw2, hdw2]
      have hsan : sanitize ((if p.scheme ≠ [] then p.scheme ++ [':']
          else []) ++ ((N ++ semi) ++
          ((if p.query ≠ [] then '?' :: p.query else []) ++
           (if p.fragment ≠ [] then '#' :: p.fragment else [])))) =
          ((if p.scheme ≠ [] then p.scheme ++ [':']
          else []) ++ ((N ++ semi) ++
          ((if p.query ≠ [] then '?' :: p.query else []) ++
           (if p.fragment ≠ [] then '#' :: p.fragment else [])))) := by
        apply sanitize_eq_self
        · apply hShead
          intro _ x hx
          rw [head?_append_left (fun h0 =>
            hNne (List.append_eq_nil.mp h0).1), hNhead] at hx
          injection hx with hx
          subst hx
          decide
        · exact clean_append hSclean (clean_append hu0clean hQFclean)
      by_cases hbr2 : (((N.drop 2).takeWhile
          (fun c => !isNetDelim c)).contains '[') =
          (((N.drop 2).takeWhile (fun c => !isNetDelim c)).contains ']')
      · -- bracket check passes: the re-parsed path still ends in the suffix
        have hZhash : '#' ∉
            (N.drop 2).dropWhile (fun c => !isNetDelim c) ++ semi := by
          intro hm
          rcases List.mem_append.mp hm with hm | hm
          · exact hNhash (List.drop_subset 2 N (dropWhile_sublist_mem hm))
          · exact hsemi_hash hm
        have hZqm : '?' ∉
            (N.drop 2).dropWhile (fun c => !isNetDelim c) ++ semi := by
          intro hm
          rcases List.mem_append.mp hm with hm | hm
          · exact hNqm (List.drop_subset 2 N (dropWhile_sublist_mem hm))
          · exact hsemi_qm hm
        obtain ⟨u3v, fragv, qv, h4, h5⟩ := htail
          ((N.drop 2).dropWhile (fun c => !isNetDelim c) ++ semi)
          hZhash hZqm
        obtain ⟨wz, hwz⟩ := endsWith_chat_decomp hZends
        obtain ⟨prms, hps⟩ := hparam (wz ++ strL "/chat")
        have hZform : (N.drop 2).dropWhile (fun c => !isNetDelim c) =
            (wz ++ strL "/chat") ++ '/' :: strL "completions" := by
          rw [hwz, chatSuffix_eq]
          simp [List.append_assoc]
        have hpse : paramStep p.scheme
            ((N.drop 2).dropWhile (fun c => !isNetDelim c) ++ semi) =
            ((N.drop 2).dropWhile (fun c => !isNetDelim c), prms) := by
          rw [hZform, hps]
        exact assemble_fixed hsan h1 h2 hbr2 h4 h5 hpse hZends
      · exact assemble_error hsan h1 h2 hbr2
    · -- the reassembled URL does not start `//`: plain path reparse
      have h1 := hSstep
        ((N ++ semi) ++
          ((if p.query ≠ [] then '?' :: p.query else []) ++
           (if p.fragment ≠ [] then '#' :: p.fragment else [])))
        (fun hs0 => by
          have hsafe0 : ∀ a b, splitFirst ':' p.path = some (a, b) →
              schemeLike a = false := hpath_safe hs0 hnl0
          have hform : (N ++ semi) ++
              ((if p.query ≠ [] then '?' :: p.query else []) ++
               (if p.fragment ≠ [] then '#' :: p.fragment else [])) =
              appendChat p.path ++ (semi ++
              ((if p.query ≠ [] then '?' :: p.query else []) ++
               (if p.fragment ≠ [] then '#' :: p.fragment else []))) := by
            rw [← hNdef]
            simp [List.append_assoc]
          rw [hform]
          exact appendChat_scheme_safe hsafe0)
      have htake2 : ((N ++ semi) ++
          ((if p.query ≠ [] then '?' :: p.query else []) ++
           (if p.fragment ≠ [] then '#' :: p.fragment else []))).take 2 ≠
          ['/', '/'] := by
        rw [List.take_append_of_le_length hu0len]
        exact h2c
      have h2 : (if ((N ++ semi) ++
          ((if p.query ≠ [] then '?' :: p.query else []) ++
           (if p.fragment ≠ [] then '#' :: p.fragment else []))).take 2 =
            ['/', '/'] then
          splitnetloc (((N ++ semi) ++
            ((if p.query ≠ [] then '?' :: p.query else []) ++
             (if p.fragment ≠ [] then '#' :: p.fragment else []))).drop 2)
          else ([], ((N ++ semi) ++
            ((if p.query ≠ [] then '?' :: p.query else []) ++
             (if p.fragment ≠ [] then '#' :: p.fragment else []))))) =
          ([], (N ++ semi) ++
            ((if p.query ≠ [] then '?' :: p.query else []) ++
             (if p.fragment ≠ [] then '#' :: p.fragment else []))) := by
        rw [if_neg htake2]
      obtain ⟨u3v, fragv, qv, h4, h5⟩ := htail (N ++ semi) hu0hash hu0qm
      obtain ⟨prms, hps⟩ := hparam B
      have hpse : paramStep p.scheme (N ++ semi) = (N, prms) := by
        have hform : N ++ semi = (B ++ '/' :: strL "completions") ++ semi := by
          rw [hB]
        rw [hform, hps, ← hB]
      have hsan : sanitize ((if p.scheme ≠ [] then p.scheme ++ [':']
          else []) ++ ((N ++ semi) ++
          ((if p.query ≠ [] then '?' :: p.query else []) ++
           (if p.fragment ≠ [] then '#' :: p.fragment else [])))) =
          ((if p.scheme ≠ [] then p.scheme ++ [':']
          else []) ++ ((N ++ semi) ++
          ((if p.query ≠ [] then '?' :: p.query else []) ++
           (if p.fragment ≠ [] then '#' :: p.fragment else [])))) := by
        apply sanitize_eq_self
        · apply hShead
          intro hs0 x hx
          rw [head?_append_left (fun h0 =>
            hNne (List.append_eq_nil.mp h0).1)] at hx
          rw [head?_append_left hNne] at hx
          by_cases hp0 : p.path = []
          · rw [hNdef, hp0, appendChat_head_nil] at hx
            injection hx with hx
            subst hx
            decide
          · rw [hNdef, appendChat_head hp0] at hx
            exact hpath_head hs0 hnl0 x hx
        · exact clean_append hSclean (clean_append hu0clean hQFclean)
      exact assemble_fixed hsan h1 h2 rfl h4 h5 hpse hNends

theorem getApiUrl_build {url : Str} {p : UrlParts}
    (h : urlparseE url = .ok p)
    (hs : pyEndsWith p.path chatSuffix = false) :
    getApiUrl url = urlunparse p.scheme p.netloc (appendChat p.path)
      p.params p.query p.fragment := by
  unfold getApiUrl
  rw [h]
  dsimp only
  rw [hs]
  rfl

/-- C6 counterexample: `_get_api_url` is not idempotent. For the base URL
`////`, the parsed path is `//`; appending yields the URL
`//chat/completions`, which re-parses with netloc `chat` and path
`/completions`, so a second application appends the suffix again. -/
theorem idempotence_counterexample :
    urlparseE (strL "////") = Except.ok ⟨[], [], strL "//", [], [], []⟩ ∧
    getApiUrl (strL "////") = strL "//chat/completions" ∧
    getApiUrl (getApiUrl (strL "////")) =
      strL "//chat/completions/chat/completions" ∧
    getApiUrl (getApiUrl (strL "////")) ≠ getApiUrl (strL "////") :=
  ⟨rfl, rfl, rfl, by decide⟩

/-- C6 (amended): a URL whose parsed path already ends in
`/chat/completions` is returned unchanged; and `_get_api_url` is idempotent
on every URL that fails to parse, and on every URL that parses with
netloc-and-path shape other than the degenerate (netloc = "", path = "//")
— that single shape is the only source of non-idempotence. -/
theorem idempotence_amended :
    (∀ url p, urlparseE url = Except.ok p →
      pyEndsWith p.path chatSuffix = true → getApiUrl url = url) ∧
    (∀ url e, urlparseE url = Except.error e →
      getApiUrl (getApiUrl url) = getApiUrl url) ∧
    (∀ url p, urlparseE url = Except.ok p →
      ¬(p.netloc = [] ∧ p.path = strL "//") →
      getApiUrl (getApiUrl url) = getApiUrl url) := by
  refine ⟨fun url p hok hs => getApiUrl_suffix_aux hok hs, ?_, ?_⟩
  · intro url e herr
    rw [getApiUrl_error_aux herr, getApiUrl_error_aux herr]
  · intro url p hok hexcl
    cases hs : pyEndsWith p.path chatSuffix with
    | true =>
      rw [getApiUrl_suffix_aux hok hs, getApiUrl_suffix_aux hok hs]
    | false =>
      rw [getApiUrl_build hok hs]
      exact reparse_fixed (parse_inv hok) hexcl

/-- Witness for C6 (amended): a suffixed URL is unchanged; an unparsable
URL and a normal URL are idempotent fixed points. -/
theorem idempotence_amended_witness :
    getApiUrl (strL "http://x/chat/completions") =
      strL "http://x/chat/completions" ∧
    getApiUrl (getApiUrl (strL "http://[::1/v1")) =
      getApiUrl (strL "http://[::1/v1") ∧
    getApiUrl (getApiUrl (strL "https://api.example.com/v1")) =
      getApiUrl (strL "https://api.example.com/v1") :=
  ⟨idempotence_amended.1 (strL "http://x/chat/completions")
      ⟨strL "http", strL "x", strL "/chat/completions", [], [], []⟩ rfl rfl,
   idempotence_amended.2.1 (strL "http://[::1/v1")
      (PyExc.valueError (strL "Invalid IPv6 URL")) rfl,
   idempotence_amended.2.2 (strL "https://api.example.com/v1")
      ⟨strL "https", strL "api.example.com", strL "/v1", [], [], []⟩ rfl
      (by decide)⟩

/-- C5 counterexample: when the parsed path ends with `/` the code appends
`chat/completions` directly, so a path ending in `//` keeps its double
slash: `https://api.example.com/v1//` normalizes to a URL containing
`//chat/completions`, not a single separating slash. -/
theorem suffix_join_counterexample :
    urlparseE (strL "https://api.example.com/v1//") =
      Except.ok ⟨strL "https", strL "api.example.com", strL "/v1//",
        [], [], []⟩ ∧
    pyEndsWith (strL "/v1//") chatSuffix = false ∧
    getApiUrl (strL "https://api.example.com/v1//") =
      strL "https://api.example.com/v1//chat/completions" ∧
    pyEndsWith (getApiUrl (strL "https://api.example.com/v1//"))
      (strL "//chat/completions") = true :=
  ⟨rfl, rfl, rfl, rfl⟩

/-- C5 (amended): for every URL that parses with a path not already ending
in `/chat/completions`, normalization reassembles the URL from the original
scheme, authority, params, query and fragment with the suffixed path; the
new path always ends in `/chat/completions`, formed by appending
`chat/completions` directly after a trailing slash (so a trailing `//` is
preserved, producing a doubled slash) and `/chat/completions` otherwise. -/
theorem suffix_join_amended : ∀ url p, urlparseE url = Except.ok p →
    pyEndsWith p.path chatSuffix = false →
    getApiUrl url = urlunparse p.scheme p.netloc (appendChat p.path)
      p.params p.query p.fragment ∧
    pyEndsWith (appendChat p.path) chatSuffix = true ∧
    (pyEndsWith p.path (strL "/") = true →
      appendChat p.path = p.path ++ strL "chat/completions") ∧
    (pyEndsWith p.path (strL "/") = false →
      appendChat p.path = p.path ++ strL "/chat/completions") := by
  intro url p hok hs
  refine ⟨getApiUrl_build hok hs, appendChat_ends p.path, ?_, ?_⟩
  · intro h
    simp [appendChat, h]
  · intro h
    simp [appendChat, h, chatSuffix]

/-- Witness for C5 (amended) at `https://api.example.com/v1`. -/
theorem suffix_join_amended_witness :
    getApiUrl (strL "https://api.example.com/v1") =
      urlunparse (strL "https") (strL "api.example.com")
        (appendChat (strL "/v1")) [] [] [] ∧
    pyEndsWith (appendChat (strL "/v1")) chatSuffix = true ∧
    (pyEndsWith (strL "/v1") (strL "/") = true →
      appendChat (strL "/v1") = strL "/v1" ++ strL "chat/completions") ∧
    (pyEndsWith (strL "/v1") (strL "/") = false →
      appendChat (strL "/v1") = strL "/v1" ++ strL "/chat/completions") :=
  suffix_join_amended (strL "https://api.example.com/v1")
    ⟨strL "https", strL "api.example.com", strL "/v1", [], [], []⟩ rfl rfl
